import Mathlib

/-!
Verification of the core components of the `atcoder-snippets` repository:
the Z-algorithm string-matching engine (`z.rs`) and the hash-keyed
disjoint-set forest (`hash_union_find_sets.rs`).

The Rust code is shallowly embedded: slices become `List`s, `Vec` pushes
become list appends, the `Rc<RefCell<_>>` node graph of the union-find
becomes an arena (`List UFNode`) addressed by node ids, and every
`unsafe`/unchecked access or fuel-limited recursion is modelled with
`Option`, where `none` marks a state the original code would reach only
through undefined behaviour or a broken internal invariant.
-/

set_option linter.unusedSectionVars false

namespace Z

/-- Embeds `z_internal::exact_match_len`: length of the longest common
prefix of two sequences, computed by elementwise comparison. -/
def exact_match_len {α : Type} [DecidableEq α] : List α → List α → Nat
  | c1 :: s1, c2 :: s2 => if c1 = c2 then exact_match_len s1 s2 + 1 else 0
  | _, _ => 0

/-- The mutable state threaded through `z_internal::update_state`:
the text, the z-box `[boxStart, boxEnd)` and the z-table built so far. -/
structure ZState (α : Type) where
  text : List α
  boxStart : Nat
  boxEnd : Nat
  z_table : List Nat
deriving DecidableEq, Repr

/-- Embeds `z_internal::update_state`.  Returns `none` exactly where the
Rust code performs an unchecked access that would be out of bounds
(`z_table.get_unchecked(prefix_index)` and the two `text.get_unchecked`
slices in the in-box branch). -/
def update_state {α : Type} [DecidableEq α] (s : ZState α) : Option (Bool × ZState α) :=
  let index := s.z_table.length
  if s.text.length ≤ index then
    some (false, s)
  else if s.boxEnd ≤ index then
    let len := exact_match_len s.text (s.text.drop index)
    some (true, { s with boxStart := index, boxEnd := index + len,
                         z_table := s.z_table ++ [len] })
  else
    match s.z_table[index - s.boxStart]? with
    | none => none
    | some prefix_right_len =>
      let z_box_right_len := s.boxEnd - index
      if prefix_right_len < z_box_right_len then
        some (true, { s with z_table := s.z_table ++ [prefix_right_len] })
      else
        if s.boxEnd ≤ s.text.length then
          let additional_len :=
            exact_match_len (s.text.drop z_box_right_len) (s.text.drop s.boxEnd)
          some (true, { s with boxStart := index, boxEnd := s.boxEnd + additional_len,
                               z_table := s.z_table ++ [z_box_right_len + additional_len] })
        else none

/-- The state built by `LongestPrefixLengths::new`: z-table seeded with
the conventional `0` for position `0`, empty z-box. -/
def lplInit {α : Type} (t : List α) : ZState α := ⟨t, 0, 0, [0]⟩

/-- Runs the `LongestPrefixLengths` iterator to exhaustion, collecting the
yielded values.  `fuel` bounds the number of yields; `none` means either an
unchecked access went out of bounds or the fuel ran out, neither of which
happens for states reachable from `lplInit`. -/
def runZ {α : Type} [DecidableEq α] (fuel : Nat) (s : ZState α) : Option (List Nat) :=
  match update_state s with
  | none => none
  | some (false, _) => some []
  | some (true, s') =>
    match fuel with
    | 0 => none
    | fuel' + 1 =>
      match s'.z_table.getLast? with
      | none => none
      | some v => (runZ fuel' s').map (v :: ·)

/-- Embeds `<[T] as ZString<T>>::longest_prefix_lengths(..).collect()`. -/
def longest_prefix_lengths {α : Type} [DecidableEq α] (t : List α) : Option (List Nat) :=
  runZ t.length (lplInit t)

/-- The naive z-value: length of the longest common prefix of `t` and its
suffix starting at `i`. -/
def zval {α : Type} [DecidableEq α] (t : List α) (i : Nat) : Nat :=
  exact_match_len t (t.drop i)

/-- The concatenation built by `ZString::z_match_indices`: the pattern and
text wrapped in `Option.some`, separated by the guaranteed-distinct
separator `none`. -/
def zConcat {α : Type} (p t : List α) : List (Option α) :=
  p.map some ++ none :: t.map some

/-- The warm-up loop of `ZMatchIndices::new`: runs `update_state` `k`
times, discarding the returned flags. -/
def warmup {α : Type} [DecidableEq α] : Nat → ZState α → Option (ZState α)
  | 0, s => some s
  | k + 1, s =>
    match update_state s with
    | none => none
    | some (_, s') => warmup k s'

/-- Runs the loop of `ZMatchIndices::next` to exhaustion, collecting every
yielded match index (`z_table.len() - 1 - (pattern_len + 1)` whenever the
value just pushed equals `pattern_len`). -/
def runZMatch {α : Type} [DecidableEq α] (plen : Nat) (fuel : Nat) (s : ZState α) :
    Option (List Nat) :=
  match update_state s with
  | none => none
  | some (false, _) => some []
  | some (true, s') =>
    match fuel with
    | 0 => none
    | fuel' + 1 =>
      match s'.z_table.getLast? with
      | none => none
      | some v =>
        if v = plen then
          (runZMatch plen fuel' s').map ((s'.z_table.length - 1 - (plen + 1)) :: ·)
        else
          runZMatch plen fuel' s'

/-- Embeds `<[T] as ZString<T>>::z_match_indices(pattern).collect()`:
builds the wrapped concatenation, warms up over the pattern region, then
collects all yielded indices. -/
def z_match_indices {α : Type} [DecidableEq α] (t p : List α) : Option (List Nat) :=
  (warmup p.length (lplInit (zConcat p t))).bind (runZMatch p.length t.length)

/-- The z-box property: the slice `[l, r)` of `t` equals the prefix of `t`
of the same length. -/
def boxOk {α : Type} (t : List α) (l r : Nat) : Prop :=
  (t.drop l).take (r - l) = t.take (r - l)

/-- The contents the z-table must have after `k` positions have been
processed: the conventional `0` at position `0`, the z-value elsewhere. -/
def zSpecTable {α : Type} [DecidableEq α] (t : List α) (k : Nat) : List Nat :=
  (List.range k).map (fun i => if i = 0 then 0 else zval t i)

/-- The invariant maintained by `update_state` across the whole life of a
`LongestPrefixLengths` or `ZMatchIndices` iterator. -/
structure ZInv {α : Type} [DecidableEq α] (s : ZState α) : Prop where
  table : s.z_table = zSpecTable s.text s.z_table.length
  len_pos : 1 ≤ s.z_table.length
  len_le : s.z_table.length ≤ max s.text.length 1
  start_lt : s.boxStart < s.z_table.length
  start_le : s.boxStart ≤ s.boxEnd
  end_le : s.boxEnd ≤ s.text.length
  start_zero : s.boxStart = 0 → s.boxEnd = 0
  box : boxOk s.text s.boxStart s.boxEnd

/-- The property of being the length of the longest common prefix of `t`
and its suffix `t[i..]`. -/
def IsLcpLen {α : Type} (t : List α) (i v : Nat) : Prop :=
  v + i ≤ t.length ∧ t.take v = (t.drop i).take v ∧
  ∀ w, w + i ≤ t.length → t.take w = (t.drop i).take w → w ≤ v

/-- States reachable through the public constructors (`lplInit`, and via
it the warmed-up `ZMatchIndices` state) and repeated `update_state`
calls. -/
inductive ZReach {α : Type} [DecidableEq α] : ZState α → Prop where
  | init (t : List α) : ZReach (lplInit t)
  | step {s s' : ZState α} {b : Bool} :
      ZReach s → update_state s = some (b, s') → ZReach s'

end Z

namespace UF

/-- Embeds `UnionFindNodeInner`: a node is either a root holding its set
size or a child holding a parent pointer.  The `Rc<RefCell<_>>` shared
pointers become indices into an arena, so pointer identity becomes index
equality. -/
inductive UFNode where
  | root (len : Nat)
  | child (parent : Nat)
deriving DecidableEq, Repr

/-- Embeds `HashUnionFindSets<T>`: the `HashMap<T, UnionFindNode>` becomes
an association list from keys to arena indices together with the arena of
nodes. -/
structure HashUnionFindSets (κ : Type) where
  set_count : Nat
  items : List (κ × Nat)
  nodes : List UFNode
deriving DecidableEq, Repr

/-- Embeds `HashUnionFindSets::new`. -/
def new (κ : Type) : HashUnionFindSets κ := ⟨0, [], []⟩

/-- `HashMap` lookup on the key-to-node mapping. -/
def lookupKey {κ : Type} [DecidableEq κ] : List (κ × Nat) → κ → Option Nat
  | [], _ => none
  | (k', id) :: rest, k => if k = k' then some id else lookupKey rest k

/-- Embeds `HashUnionFindSets::add`. -/
def add {κ : Type} [DecidableEq κ] (s : HashUnionFindSets κ) (k : κ) :
    Bool × HashUnionFindSets κ :=
  match lookupKey s.items k with
  | some _ => (false, s)
  | none =>
    (true, ⟨s.set_count + 1, (k, s.nodes.length) :: s.items, s.nodes ++ [.root 1]⟩)

/-- Pure parent chasing (no compression): the root reached from `id`, or
`none` when the fuel runs out or a pointer dangles. -/
def chase (nodes : List UFNode) : Nat → Nat → Option Nat
  | 0, _ => none
  | fuel + 1, id =>
    match nodes[id]? with
    | some (.root _) => some id
    | some (.child p) => chase nodes fuel p
    | none => none

/-- Embeds the recursive `go` of `HashUnionFindSets::find`: returns the
root id, the root's stored size, and the arena after full path
compression (on unwinding, every visited child is rewritten to point
directly at the discovered root).  The fuel is a modelling artefact:
`none` marks the non-termination / dangling-pointer cases the Rust code
excludes by invariant. -/
def findGo : Nat → List UFNode → Nat → Option (Nat × Nat × List UFNode)
  | 0, _, _ => none
  | fuel + 1, nodes, id =>
    match nodes[id]? with
    | none => none
    | some (.root len) => some (id, len, nodes)
    | some (.child parent) =>
      match findGo fuel nodes parent with
      | none => none
      | some (r, len, nodes') => some (r, len, nodes'.set id (.child r))

/-- Embeds `HashUnionFindSets::find`. -/
def find {κ : Type} [DecidableEq κ] (s : HashUnionFindSets κ) (k : κ) :
    Option (Option (Nat × Nat) × HashUnionFindSets κ) :=
  match lookupKey s.items k with
  | none => some (none, s)
  | some id =>
    match findGo s.nodes.length s.nodes id with
    | none => none
    | some (r, len, nodes') => some (some (r, len), { s with nodes := nodes' })

/-- Embeds `HashUnionFindSets::error_msg` (the `assert!`-guarded cases
other than one or two items never occur on the call sites). -/
def error_msg : List String → String
  | [a] => "no set contains " ++ a
  | [a, b] => "no set contains " ++ a ++ " and no set contains " ++ b
  | _ => ""

/-- Embeds `HashUnionFindSets::set_eq`.  Both `find` calls run in order,
so the second sees the compression performed by the first. -/
def set_eq {κ : Type} [DecidableEq κ] [Repr κ] (s : HashUnionFindSets κ) (k1 k2 : κ) :
    Option (Except String Bool × HashUnionFindSets κ) :=
  match find s k1 with
  | none => none
  | some (r1, s1) =>
    match find s1 k2 with
    | none => none
    | some (r2, s2) =>
      match r1, r2 with
      | some (root1, _), some (root2, _) => some (.ok (decide (root1 = root2)), s2)
      | some _, none => some (.error (error_msg [reprStr k2]), s2)
      | none, some _ => some (.error (error_msg [reprStr k1]), s2)
      | none, none => some (.error (error_msg [reprStr k1, reprStr k2]), s2)

/-- Embeds `HashUnionFindSets::unite`. -/
def unite {κ : Type} [DecidableEq κ] [Repr κ] (s : HashUnionFindSets κ) (k1 k2 : κ) :
    Option (Except String Bool × HashUnionFindSets κ) :=
  match find s k1 with
  | none => none
  | some (r1, s1) =>
    match find s1 k2 with
    | none => none
    | some (r2, s2) =>
      match r1, r2 with
      | some (root1, len1), some (root2, len2) =>
        if root1 = root2 then
          some (.ok false, s2)
        else
          let pair := if len1 < len2 then (root2, root1) else (root1, root2)
          some (.ok true,
            { s2 with
              set_count := s2.set_count - 1,
              nodes := (s2.nodes.set pair.1 (.root (len1 + len2))).set pair.2
                (.child pair.1) })
      | some _, none => some (.error (error_msg [reprStr k2]), s2)
      | none, some _ => some (.error (error_msg [reprStr k1]), s2)
      | none, none => some (.error (error_msg [reprStr k1, reprStr k2]), s2)

/-- Embeds `HashUnionFindSets::len_of`. -/
def len_of {κ : Type} [DecidableEq κ] [Repr κ] (s : HashUnionFindSets κ) (k : κ) :
    Option (Except String Nat × HashUnionFindSets κ) :=
  match find s k with
  | none => none
  | some (some (_, len), s') => some (.ok len, s')
  | some (none, s') => some (.error (error_msg [reprStr k]), s')

/-- Embeds `HashUnionFindSets::items_len`. -/
def items_len {κ : Type} (s : HashUnionFindSets κ) : Nat := s.items.length

/-- Embeds `HashUnionFindSets::count`. -/
def count {κ : Type} (s : HashUnionFindSets κ) : Nat := s.set_count

/-- Embeds `FromIterator::from_iter`; per its documented behaviour, only
the first occurrence of a duplicated key is added. -/
def from_iter {κ : Type} [DecidableEq κ] (ks : List κ) : HashUnionFindSets κ :=
  ks.foldl (fun s k => (add s k).2) (new κ)

/-- A client call to the forest: `add` or `union` (`unite`). -/
inductive Op (κ : Type) where
  | add (k : κ)
  | union (k1 k2 : κ)
deriving DecidableEq, Repr

/-- Applies one call; alongside the forest it accumulates the pairs of
keys on which `unite` returned `Ok` and the number of `Ok(true)`
returns. -/
def applyOp {κ : Type} [DecidableEq κ] [Repr κ]
    (st : HashUnionFindSets κ × List (κ × κ) × Nat) (op : Op κ) :
    Option (HashUnionFindSets κ × List (κ × κ) × Nat) :=
  match op with
  | .add k => some ((add st.1 k).2, st.2.1, st.2.2)
  | .union k1 k2 =>
    match unite st.1 k1 k2 with
    | none => none
    | some (.ok true, s') => some (s', st.2.1 ++ [(k1, k2)], st.2.2 + 1)
    | some (.ok false, s') => some (s', st.2.1 ++ [(k1, k2)], st.2.2)
    | some (.error _, s') => some (s', st.2.1, st.2.2)

def runOpsFrom {κ : Type} [DecidableEq κ] [Repr κ]
    (st : HashUnionFindSets κ × List (κ × κ) × Nat) :
    List (Op κ) → Option (HashUnionFindSets κ × List (κ × κ) × Nat)
  | [] => some st
  | op :: rest =>
    match applyOp st op with
    | none => none
    | some st' => runOpsFrom st' rest

/-- Runs a call sequence from the empty forest. -/
def runOps {κ : Type} [DecidableEq κ] [Repr κ] (ops : List (Op κ)) :
    Option (HashUnionFindSets κ × List (κ × κ) × Nat) :=
  runOpsFrom (new κ, [], 0) ops

/-- Runs a call sequence from a forest collected from an iterable of
initial keys. -/
def runOpsIter {κ : Type} [DecidableEq κ] [Repr κ] (ks : List κ) (ops : List (Op κ)) :
    Option (HashUnionFindSets κ × List (κ × κ) × Nat) :=
  runOpsFrom (from_iter ks, [], 0) ops

/-- Connectivity in the reflexive-transitive-symmetric closure of a list
of key pairs. -/
inductive Connected {κ : Type} (pairs : List (κ × κ)) : κ → κ → Prop where
  | refl (a : κ) : Connected pairs a a
  | pair {a b : κ} : (a, b) ∈ pairs → Connected pairs a b
  | symm {a b : κ} : Connected pairs a b → Connected pairs b a
  | trans {a b c : κ} : Connected pairs a b → Connected pairs b c → Connected pairs a c

/-- All pairs on which `union` was called in a call sequence, regardless
of outcome. -/
def unionPairs {κ : Type} : List (Op κ) → List (κ × κ)
  | [] => []
  | .add _ :: rest => unionPairs rest
  | .union a b :: rest => (a, b) :: unionPairs rest

/-- Whether arena entry `j` holds a child node. -/
def cAt (nodes : List UFNode) (j : Nat) : Bool :=
  match nodes[j]? with
  | some (.child _) => true
  | _ => false

/-- Whether arena entry `j` holds a root node. -/
def rAt (nodes : List UFNode) (j : Nat) : Bool :=
  match nodes[j]? with
  | some (.root _) => true
  | _ => false

/-- Number of child nodes in the arena. -/
def childCount (nodes : List UFNode) : Nat :=
  ((List.range nodes.length).filter (cAt nodes)).length

/-- Number of root nodes in the arena. -/
def rootCount (nodes : List UFNode) : Nat :=
  ((List.range nodes.length).filter (rAt nodes)).length

/-- The stored size of the root node at arena index `j`, when it is one. -/
def rootLenAt (nodes : List UFNode) (j : Nat) : Option Nat :=
  match nodes[j]? with
  | some (.root len) => some len
  | _ => none

/-- The canonical root id of a key. -/
def keyRoot {κ : Type} [DecidableEq κ] (s : HashUnionFindSets κ) (k : κ) : Option Nat :=
  (lookupKey s.items k).bind (chase s.nodes (s.nodes.length + 1))

/-- The well-formedness invariant of a reachable forest: looked-up ids are
in the arena, every chain reaches a root within `childCount + 1` steps,
the cached set count equals the number of roots, and every root is some
key's root. -/
def WF {κ : Type} [DecidableEq κ] (s : HashUnionFindSets κ) : Prop :=
  (∀ k id, lookupKey s.items k = some id → id < s.nodes.length) ∧
  (∀ id, id < s.nodes.length → (chase s.nodes (childCount s.nodes + 1) id).isSome) ∧
  s.set_count = rootCount s.nodes ∧
  (∀ id, rAt s.nodes id = true → ∃ k, keyRoot s k = some id)

/-- Simulation invariant tying a forest to the history of `Ok`-returning
`unite` calls: the forest is well-formed, two present keys share a root
iff they are connected through the history, and history pairs mention only
present keys. -/
def Sim {κ : Type} [DecidableEq κ] (s : HashUnionFindSets κ) (pairs : List (κ × κ)) : Prop :=
  WF s ∧
  (∀ a b, (lookupKey s.items a).isSome → (lookupKey s.items b).isSome →
    (keyRoot s a = keyRoot s b ↔ Connected pairs a b)) ∧
  (∀ p ∈ pairs, (lookupKey s.items p.1).isSome ∧ (lookupKey s.items p.2).isSome)

/-- Observational equality of two forests: same keys, same cached count,
same arena size, same key-to-root assignment, same stored root sizes. -/
def ObsEq {κ : Type} [DecidableEq κ] (s s' : HashUnionFindSets κ) : Prop :=
  s'.items = s.items ∧ s'.set_count = s.set_count ∧
  s'.nodes.length = s.nodes.length ∧
  (∀ k, keyRoot s' k = keyRoot s k) ∧
  (∀ (j len : Nat), s.nodes[j]? = some (UFNode.root len) →
    s'.nodes[j]? = some (UFNode.root len))

/-- The number of distinct roots of the forest: distinct values of the
root assignment over all keys. -/
def distinctRoots {κ : Type} [DecidableEq κ] (s : HashUnionFindSets κ) : Nat :=
  ((s.items.filterMap (fun p => chase s.nodes (s.nodes.length + 1) p.2)).dedup).length

end UF

namespace Z

section EmlLemmas

variable {α : Type} [DecidableEq α]

theorem eml_le_left (s1 s2 : List α) : exact_match_len s1 s2 ≤ s1.length := by
  induction s1 generalizing s2 with
  | nil => cases s2 <;> simp [exact_match_len]
  | cons a s1 ih =>
    cases s2 with
    | nil => simp [exact_match_len]
    | cons b s2 =>
      simp only [exact_match_len]
      split
      · simpa using ih s2
      · simp

theorem eml_le_right (s1 s2 : List α) : exact_match_len s1 s2 ≤ s2.length := by
  induction s1 generalizing s2 with
  | nil => cases s2 <;> simp [exact_match_len]
  | cons a s1 ih =>
    cases s2 with
    | nil => simp [exact_match_len]
    | cons b s2 =>
      simp only [exact_match_len]
      split
      · simpa using ih s2
      · simp

theorem eml_take_eq (s1 s2 : List α) :
    s1.take (exact_match_len s1 s2) = s2.take (exact_match_len s1 s2) := by
  induction s1 generalizing s2 with
  | nil => cases s2 <;> simp [exact_match_len]
  | cons a s1 ih =>
    cases s2 with
    | nil => simp [exact_match_len]
    | cons b s2 =>
      simp only [exact_match_len]
      split
      · next hab => simp [List.take_succ_cons, hab, ih s2]
      · simp

theorem eml_mismatch (s1 s2 : List α)
    (h1 : exact_match_len s1 s2 < s1.length) (h2 : exact_match_len s1 s2 < s2.length) :
    s1[exact_match_len s1 s2]? ≠ s2[exact_match_len s1 s2]? := by
  induction s1 generalizing s2 with
  | nil => simp at h1
  | cons a s1 ih =>
    cases s2 with
    | nil => simp at h2
    | cons b s2 =>
      by_cases hab : a = b
      · simp only [exact_match_len, if_pos hab] at h1 h2 ⊢
        simp only [List.getElem?_cons_succ]
        exact ih s2 (by simp only [List.length_cons] at h1; omega)
          (by simp only [List.length_cons] at h2; omega)
      · simp only [exact_match_len, if_neg hab]
        simp [hab]

theorem le_eml_of_take_eq {s1 s2 : List α} {k : Nat}
    (h1 : k ≤ s1.length) (h2 : k ≤ s2.length) (h : s1.take k = s2.take k) :
    k ≤ exact_match_len s1 s2 := by
  induction k generalizing s1 s2 with
  | zero => simp
  | succ k ih =>
    cases s1 with
    | nil => simp at h1
    | cons a s1 =>
      cases s2 with
      | nil => simp at h2
      | cons b s2 =>
        simp only [List.take_succ_cons, List.cons.injEq] at h
        simp only [exact_match_len, h.1, if_pos]
        have := ih (by simpa using h1) (by simpa using h2) h.2
        omega

theorem eml_le_of_get_ne (s1 s2 : List α) (k : Nat) (h : s1[k]? ≠ s2[k]?) :
    exact_match_len s1 s2 ≤ k := by
  induction k generalizing s1 s2 with
  | zero =>
    cases s1 with
    | nil => simp [exact_match_len]
    | cons a s1 =>
      cases s2 with
      | nil => simp [exact_match_len]
      | cons b s2 =>
        simp only [exact_match_len]
        split
        · next hab => simp [hab] at h
        · simp
  | succ k ih =>
    cases s1 with
    | nil => simp [exact_match_len]
    | cons a s1 =>
      cases s2 with
      | nil => simp [exact_match_len]
      | cons b s2 =>
        simp only [exact_match_len]
        split
        · have := ih s1 s2 (by simpa using h)
          omega
        · simp

theorem eml_add_of_take_eq {s1 s2 : List α} {k : Nat}
    (h1 : k ≤ s1.length) (h2 : k ≤ s2.length) (h : s1.take k = s2.take k) :
    exact_match_len s1 s2 = k + exact_match_len (s1.drop k) (s2.drop k) := by
  induction k generalizing s1 s2 with
  | zero => simp
  | succ k ih =>
    cases s1 with
    | nil => simp at h1
    | cons a s1 =>
      cases s2 with
      | nil => simp at h2
      | cons b s2 =>
        simp only [List.take_succ_cons, List.cons.injEq] at h
        simp only [exact_match_len, h.1, if_pos, List.drop_succ_cons]
        have := ih (by simpa using h1) (by simpa using h2) h.2
        omega

end EmlLemmas

section ZvalLemmas

variable {α : Type} [DecidableEq α]

theorem zval_le (t : List α) (i : Nat) : zval t i ≤ t.length - i := by
  have := eml_le_right t (t.drop i)
  simpa [zval, List.length_drop] using this

theorem zval_le_length (t : List α) (i : Nat) : zval t i ≤ t.length :=
  eml_le_left t (t.drop i)

theorem zval_take (t : List α) (i : Nat) :
    t.take (zval t i) = (t.drop i).take (zval t i) :=
  eml_take_eq t (t.drop i)

theorem boxOk_of_zval (t : List α) (i : Nat) : boxOk t i (i + zval t i) := by
  unfold boxOk
  rw [Nat.add_sub_cancel_left]
  exact (zval_take t i).symm

/-- Inside the box, the suffix at `i` agrees with the suffix at the mirror
position `i - l` for the `r - i` elements remaining in the box. -/
theorem mirror_take (t : List α) (l r i : Nat)
    (hli : l ≤ i) (hir : i ≤ r) (hbox : boxOk t l r) :
    (t.drop i).take (r - i) = (t.drop (i - l)).take (r - i) := by
  set m := i - l with hm
  set rem := r - i with hrem
  have hmr : r - l = m + rem := by omega
  have hdrop : t.drop i = (t.drop l).drop m := by
    rw [List.drop_drop]
    congr 1
    omega
  calc (t.drop i).take rem
      = ((t.drop l).drop m).take rem := by rw [hdrop]
    _ = List.drop m ((t.drop l).take (m + rem)) := by
        rw [List.take_drop]
    _ = List.drop m (t.take (m + rem)) := by
        rw [← hmr, hbox]
    _ = (t.drop m).take rem := by
        rw [List.take_drop]

/-- Inside the box, elements of `t` at offset `l + j` equal those at `j`. -/
theorem box_get (t : List α) (l r j : Nat) (hbox : boxOk t l r) (hj : j < r - l) :
    t[l + j]? = t[j]? := by
  have h1 : ((t.drop l).take (r - l))[j]? = (t.drop l)[j]? := by
    rw [List.getElem?_take, if_pos hj]
  have h2 : (t.take (r - l))[j]? = t[j]? := by
    rw [List.getElem?_take, if_pos hj]
  have h3 : (t.drop l)[j]? = t[l + j]? := List.getElem?_drop t l j
  rw [← h3, ← h1, hbox, h2]

/-- The easy in-box case of the Z recurrence: when the mirrored value is
strictly below the remaining box length, it is the z-value at `i`. -/
theorem zval_in_box_lt (t : List α) (l r i : Nat)
    (hl : 1 ≤ l) (hli : l < i) (hir : i < r) (hrn : r ≤ t.length)
    (hbox : boxOk t l r)
    (hlt : zval t (i - l) < r - i) :
    zval t i = zval t (i - l) := by
  set m := i - l with hm
  set rem := r - i with hrem
  set mlen := zval t m with hmlen
  have hmlen_le : mlen ≤ t.length - m := zval_le t m
  have hmirror : (t.drop i).take rem = (t.drop m).take rem :=
    mirror_take t l r i (le_of_lt hli) (le_of_lt hir) hbox
  -- lower bound
  have hge : mlen ≤ zval t i := by
    apply le_eml_of_take_eq
    · exact le_trans hmlen_le (Nat.sub_le _ _)
    · rw [List.length_drop]; omega
    · have e1 : t.take mlen = (t.drop m).take mlen := zval_take t m
      have e2 : (t.drop i).take mlen = (t.drop m).take mlen := by
        calc (t.drop i).take mlen
            = ((t.drop i).take rem).take mlen := by
              rw [List.take_take, inf_of_le_left (le_of_lt hlt)]
          _ = ((t.drop m).take rem).take mlen := by rw [hmirror]
          _ = (t.drop m).take mlen := by
              rw [List.take_take, inf_of_le_left (le_of_lt hlt)]
      rw [e1, e2]
  -- upper bound via the mismatch at mlen
  have hmlt1 : mlen < t.length := by omega
  have hmlt2 : mlen < (t.drop m).length := by
    rw [List.length_drop]
    omega
  have hne : t[mlen]? ≠ (t.drop m)[mlen]? := eml_mismatch t (t.drop m) hmlt1 hmlt2
  have hmm : (t.drop m)[mlen]? = t[m + mlen]? := List.getElem?_drop t m mlen
  have hbg : t[l + (m + mlen)]? = t[m + mlen]? := by
    apply box_get t l r (m + mlen) hbox
    omega
  have him : l + (m + mlen) = i + mlen := by omega
  have hii : (t.drop i)[mlen]? = t[i + mlen]? := List.getElem?_drop t i mlen
  have hle : zval t i ≤ mlen := by
    apply eml_le_of_get_ne
    rw [hii, ← him, hbg, ← hmm]
    exact hne
  omega

/-- The extending in-box case of the Z recurrence: when the mirrored value
reaches the end of the box, the z-value at `i` is the remaining box length
plus the direct extension match. -/
theorem zval_in_box_ge (t : List α) (l r i : Nat)
    (hl : 1 ≤ l) (hli : l < i) (hir : i < r) (hrn : r ≤ t.length)
    (hbox : boxOk t l r)
    (hge : r - i ≤ zval t (i - l)) :
    zval t i = (r - i) + exact_match_len (t.drop (r - i)) (t.drop r) := by
  set m := i - l with hm
  set rem := r - i with hrem
  set mlen := zval t m with hmlen
  have hmirror : (t.drop i).take rem = (t.drop m).take rem :=
    mirror_take t l r i (le_of_lt hli) (le_of_lt hir) hbox
  have e1 : t.take rem = (t.drop i).take rem := by
    have em : t.take mlen = (t.drop m).take mlen := zval_take t m
    calc t.take rem
        = (t.take mlen).take rem := by
          rw [List.take_take, inf_of_le_left hge]
      _ = ((t.drop m).take mlen).take rem := by rw [em]
      _ = (t.drop m).take rem := by
          rw [List.take_take, inf_of_le_left hge]
      _ = (t.drop i).take rem := hmirror.symm
  have hrem_le1 : rem ≤ t.length := by omega
  have hrem_le2 : rem ≤ (t.drop i).length := by
    rw [List.length_drop]
    omega
  have := eml_add_of_take_eq hrem_le1 hrem_le2 e1
  have hdd : (t.drop i).drop rem = t.drop r := by
    rw [List.drop_drop]
    congr 1
    omega
  rw [zval, this, hdd]

end ZvalLemmas

section Invariant

variable {α : Type} [DecidableEq α]

theorem zSpecTable_length (t : List α) (k : Nat) : (zSpecTable t k).length = k := by
  simp [zSpecTable]

theorem zSpecTable_succ (t : List α) (k : Nat) (hk : 1 ≤ k) :
    zSpecTable t (k + 1) = zSpecTable t k ++ [zval t k] := by
  unfold zSpecTable
  rw [List.range_succ, List.map_append]
  simp only [List.map_cons, List.map_nil]
  congr 2
  rw [if_neg]
  omega

theorem zSpecTable_get (t : List α) (k m : Nat) (hm : m < k) :
    (zSpecTable t k)[m]? = some (if m = 0 then 0 else zval t m) := by
  unfold zSpecTable
  rw [List.getElem?_map, List.getElem?_range hm]
  rfl

theorem lplInit_inv (t : List α) : ZInv (lplInit t) := by
  refine ⟨?_, ?_, ?_, ?_, ?_, ?_, ?_, ?_⟩ <;>
    simp [lplInit, zSpecTable, List.range, List.range.loop, boxOk]

/-- When all positions are processed, `update_state` reports exhaustion
and leaves the state untouched. -/
theorem update_state_done (s : ZState α) (h : s.text.length ≤ s.z_table.length) :
    update_state s = some (false, s) := by
  simp [update_state, h]

/-- The central step lemma: on an invariant state with unprocessed
positions, `update_state` succeeds, pushes exactly the z-value of the next
position, preserves the invariant and never shrinks the box's right
edge. -/
theorem update_state_step (s : ZState α) (inv : ZInv s)
    (h : s.z_table.length < s.text.length) :
    ∃ s', update_state s = some (true, s') ∧ ZInv s' ∧ s'.text = s.text ∧
      s'.z_table = s.z_table ++ [zval s.text s.z_table.length] ∧
      s.boxEnd ≤ s'.boxEnd ∧ s'.z_table.length = s.z_table.length + 1 := by
  obtain ⟨t, l, r, tbl⟩ := s
  obtain ⟨htable, hpos, hle, hslt, hsle, hend, hzero, hbox⟩ := inv
  simp only at htable hpos hle hslt hsle hend hzero hbox h
  set i := tbl.length with hi
  by_cases hbr : r ≤ i
  · -- branch 1: outside the box, direct computation
    refine ⟨⟨t, i, i + zval t i, tbl ++ [zval t i]⟩, ?_, ?_, rfl, rfl, ?_, by simp⟩
    · simp only [update_state, if_neg (by omega : ¬ t.length ≤ i), if_pos hbr]
      rfl
    · have hzle := zval_le t i
      refine ⟨?_, by simp, ?_, by simp, by dsimp only; omega, by dsimp only; omega,
        by dsimp only; omega, ?_⟩
      · show tbl ++ [zval t i] = zSpecTable t (tbl ++ [zval t i]).length
        have hlen : (tbl ++ [zval t i]).length = i + 1 := by
          simp [← hi]
        rw [hlen, zSpecTable_succ t i hpos, htable]
      · show (tbl ++ [zval t i]).length ≤ max t.length 1
        simp only [List.length_append, List.length_cons, List.length_nil, ← hi]
        omega
      · simpa using boxOk_of_zval t i
    · dsimp only
      omega
  · -- inside the box
    push_neg at hbr
    have hl1 : 1 ≤ l := by
      rcases Nat.eq_zero_or_pos l with h0 | h1
      · exfalso
        have := hzero h0
        omega
      · exact h1
    set m := i - l with hm
    have hm0 : 1 ≤ m := by omega
    have hmi : m < i := by omega
    have hget : tbl[m]? = some (zval t m) := by
      rw [htable, zSpecTable_get t i m hmi, if_neg (by omega)]
    by_cases hcase : zval t m < r - i
    · -- reuse the mirrored value
      refine ⟨⟨t, l, r, tbl ++ [zval t m]⟩, ?_, ?_, rfl, ?_, le_refl r, by simp⟩
      · simp only [update_state, if_neg (by omega : ¬ t.length ≤ i),
          if_neg (by omega : ¬ r ≤ i), hget, if_pos hcase]
      · refine ⟨?_, by simp, ?_, by simp; omega, hsle, hend, hzero, hbox⟩
        · simp only [List.length_append, List.length_cons, List.length_nil]
          rw [htable, zSpecTable_length]
          rw [zSpecTable_succ t i hpos]
          rw [zval_in_box_lt t l r i hl1 (by omega) hbr hend hbox hcase]
        · simp only [List.length_append, List.length_cons, List.length_nil]
          omega
      · rw [zval_in_box_lt t l r i hl1 (by omega) hbr hend hbox hcase]
    · -- extend past the box
      push_neg at hcase
      set rem := r - i with hrem
      set add := exact_match_len (t.drop rem) (t.drop r) with hadd
      have hzv : zval t i = rem + add :=
        zval_in_box_ge t l r i hl1 (by omega) hbr hend hbox hcase
      have hadd_le : add ≤ t.length - r := by
        have := eml_le_right (t.drop rem) (t.drop r)
        simpa [List.length_drop] using this
      refine ⟨⟨t, i, r + add, tbl ++ [rem + add]⟩, ?_, ?_, rfl, ?_,
        by dsimp only; omega, by simp⟩
      · simp only [update_state, if_neg (by omega : ¬ t.length ≤ i),
          if_neg (by omega : ¬ r ≤ i), hget, if_neg (by omega : ¬ zval t m < r - i),
          if_pos hend]
      · have hlen : (tbl ++ [rem + add]).length = i + 1 := by
          simp [← hi]
        refine ⟨?_, by simp, ?_, by dsimp only; rw [hlen]; omega, by dsimp only; omega,
          by dsimp only; omega, by dsimp only; omega, ?_⟩
        · show tbl ++ [rem + add] = zSpecTable t (tbl ++ [rem + add]).length
          rw [hlen, zSpecTable_succ t i hpos, htable, hzv]
        · show (tbl ++ [rem + add]).length ≤ max t.length 1
          rw [hlen]
          omega
        · show boxOk t i (r + add)
          have hre : r + add - i = zval t i := by omega
          unfold boxOk
          rw [hre]
          exact (zval_take t i).symm
      · rw [hzv]

end Invariant

section Runs

variable {α : Type} [DecidableEq α]

/-- Running the iterator from any invariant state yields exactly the
z-values of the remaining positions, in position order. -/
theorem runZ_spec (t : List α) (fuel : Nat) (s : ZState α) (inv : ZInv s)
    (hs : s.text = t) (hfuel : t.length - s.z_table.length ≤ fuel) :
    runZ fuel s =
      some ((List.range' s.z_table.length (t.length - s.z_table.length)).map (zval t)) := by
  induction fuel generalizing s with
  | zero =>
    have hdone : t.length ≤ s.z_table.length := by omega
    rw [runZ, update_state_done s (by rw [hs]; exact hdone)]
    have : t.length - s.z_table.length = 0 := by omega
    rw [this]
    rfl
  | succ fuel ih =>
    by_cases hrem : t.length ≤ s.z_table.length
    · rw [runZ, update_state_done s (by rw [hs]; exact hrem)]
      have : t.length - s.z_table.length = 0 := by omega
      rw [this]
      rfl
    · push_neg at hrem
      obtain ⟨s', hup, inv', htext, htbl, _, hlen⟩ :=
        update_state_step s inv (by rw [hs]; exact hrem)
      have hlast : s'.z_table.getLast? = some (zval t s.z_table.length) := by
        rw [htbl, hs, List.getLast?_concat]
      have hrange : List.range' s.z_table.length (t.length - s.z_table.length) =
          s.z_table.length :: List.range' (s'.z_table.length) (t.length - s'.z_table.length) := by
        have h1 : t.length - s.z_table.length = (t.length - s'.z_table.length) + 1 := by omega
        rw [h1, List.range'_succ, hlen]
      rw [runZ, hup]
      simp only [hlast, ih s' inv' (htext.trans hs) (by omega), hrange, Option.map_some,
        List.map_cons]
      rfl

theorem zval_isLcpLen (t : List α) (i : Nat) (hi : i ≤ t.length) :
    IsLcpLen t i (zval t i) := by
  refine ⟨?_, zval_take t i, ?_⟩
  · have := zval_le t i
    omega
  · intro w hw hweq
    apply le_eml_of_take_eq (by omega) _ hweq
    rw [List.length_drop]
    omega

end Runs

section Reach

variable {α : Type} [DecidableEq α]

theorem ZReach.inv {s : ZState α} (h : ZReach s) : ZInv s := by
  induction h with
  | init t => exact lplInit_inv t
  | step hre hup ih =>
    rename_i s s' b
    by_cases hdone : s.text.length ≤ s.z_table.length
    · rw [update_state_done s hdone] at hup
      obtain ⟨rfl, rfl⟩ : b = false ∧ s' = s := by
        constructor <;> { injection hup with h'; cases h'; rfl }
      exact ih
    · push_neg at hdone
      obtain ⟨s'', hup', inv', _, _, _, _⟩ := update_state_step s ih hdone
      rw [hup'] at hup
      obtain ⟨rfl, rfl⟩ : b = true ∧ s' = s'' := by
        constructor <;> { injection hup with h'; cases h'; rfl }
      exact inv'

end Reach

section MatchRun

variable {α : Type} [DecidableEq α]

theorem warmup_spec (k : Nat) (s : ZState α) (inv : ZInv s)
    (hk : s.z_table.length + k ≤ s.text.length) :
    ∃ s', warmup k s = some s' ∧ ZInv s' ∧ s'.text = s.text ∧
      s'.z_table.length = s.z_table.length + k := by
  induction k generalizing s with
  | zero => exact ⟨s, rfl, inv, rfl, rfl⟩
  | succ k ih =>
    obtain ⟨s1, hup, inv1, htext, htbl, hmono, hlen⟩ := update_state_step s inv (by omega)
    obtain ⟨s', hw, inv', htext', hlen'⟩ := ih s1 inv1 (by rw [hlen, htext]; omega)
    refine ⟨s', ?_, inv', htext'.trans htext, by omega⟩
    rw [warmup, hup]
    exact hw

theorem runZMatch_spec (c : List α) (plen fuel : Nat) (s : ZState α) (inv : ZInv s)
    (hs : s.text = c) (hfuel : c.length - s.z_table.length ≤ fuel) :
    runZMatch plen fuel s =
      some (((List.range' s.z_table.length (c.length - s.z_table.length)).filter
          (fun pos => decide (zval c pos = plen))).map (fun pos => pos - (plen + 1))) := by
  induction fuel generalizing s with
  | zero =>
    rw [runZMatch, update_state_done s (by rw [hs]; omega)]
    have h0 : c.length - s.z_table.length = 0 := by omega
    rw [h0]
    rfl
  | succ fuel ih =>
    by_cases hrem : c.length ≤ s.z_table.length
    · rw [runZMatch, update_state_done s (by rw [hs]; exact hrem)]
      have h0 : c.length - s.z_table.length = 0 := by omega
      rw [h0]
      rfl
    · push_neg at hrem
      obtain ⟨s', hup, inv', htext, htbl, hmono, hlen⟩ :=
        update_state_step s inv (by rw [hs]; exact hrem)
      have hlast : s'.z_table.getLast? = some (zval c s.z_table.length) := by
        rw [htbl, hs, List.getLast?_concat]
      have hrange : List.range' s.z_table.length (c.length - s.z_table.length) =
          s.z_table.length :: List.range' s'.z_table.length (c.length - s'.z_table.length) := by
        have h1 : c.length - s.z_table.length = (c.length - s'.z_table.length) + 1 := by omega
        rw [h1, List.range'_succ, hlen]
      have hidx : s'.z_table.length - 1 = s.z_table.length := by omega
      rw [runZMatch, hup]
      simp only [hlast]
      rw [ih s' inv' (htext.trans hs) (by omega), hrange]
      by_cases hv : zval c s.z_table.length = plen
      · rw [if_pos hv]
        simp [List.filter_cons, hv, hidx]
      · rw [if_neg hv]
        simp [List.filter_cons, hv]

theorem zConcat_length (p t : List α) : (zConcat p t).length = p.length + 1 + t.length := by
  simp [zConcat]
  omega

theorem zConcat_drop (p t : List α) (i : Nat) :
    (zConcat p t).drop (p.length + 1 + i) = (t.drop i).map some := by
  unfold zConcat
  have h1 : p.length + 1 + i = (p.map some).length + (i + 1) := by
    simp
    omega
  rw [h1, List.drop_append, List.drop_succ_cons, ← List.map_drop]

theorem zConcat_get_sep (p t : List α) : (zConcat p t)[p.length]? = some none := by
  unfold zConcat
  rw [List.getElem?_append_right (by simp)]
  simp

theorem zConcat_take (p t : List α) : (zConcat p t).take p.length = p.map some := by
  unfold zConcat
  have h : p.length = (p.map some).length := by simp
  rw [h, List.take_left]

/-- The separator argument: a position in the text region of the
concatenation has z-value exactly `length pattern` iff the pattern occurs
at the corresponding text index. -/
theorem zval_zConcat (p t : List α) (i : Nat) :
    zval (zConcat p t) (p.length + 1 + i) = p.length ↔ (t.drop i).take p.length = p := by
  have hdrop : (zConcat p t).drop (p.length + 1 + i) = (t.drop i).map some :=
    zConcat_drop p t i
  rw [zval, hdrop]
  constructor
  · intro h
    have htake := eml_take_eq (zConcat p t) ((t.drop i).map some)
    rw [h, zConcat_take, ← List.map_take] at htake
    exact (List.map_injective_iff.mpr (Option.some_injective α) htake).symm
  · intro h
    have hlen : p.length ≤ t.length - i := by
      have hl := congrArg List.length h
      simp only [List.length_take, List.length_drop] at hl
      omega
    apply le_antisymm
    · apply eml_le_of_get_ne
      rw [zConcat_get_sep, List.getElem?_map]
      cases (t.drop i)[p.length]? <;> simp
    · apply le_eml_of_take_eq
      · rw [zConcat_length]
        omega
      · rw [List.length_map, List.length_drop]
        exact hlen
      · rw [zConcat_take, ← List.map_take, h]

end MatchRun

section MatchAssembly

variable {α : Type} [DecidableEq α]

theorem match_reindex (p t : List α) :
    (((List.range' (p.length + 1) t.length).filter
        (fun pos => decide (zval (zConcat p t) pos = p.length))).map
      (fun pos => pos - (p.length + 1))) =
      (List.range t.length).filter (fun i => decide ((t.drop i).take p.length = p)) := by
  rw [List.range'_eq_map_range, List.filter_map, List.map_map]
  have hfil : List.filter ((fun pos => decide (zval (zConcat p t) pos = p.length)) ∘
      (fun x => p.length + 1 + x)) (List.range t.length) =
      List.filter (fun i => decide ((t.drop i).take p.length = p)) (List.range t.length) := by
    apply List.filter_congr
    intro i hi
    simp only [Function.comp_apply, decide_eq_decide]
    exact zval_zConcat p t i
  rw [hfil]
  have hmap : ∀ l : List Nat, List.map ((fun pos => pos - (p.length + 1)) ∘
      (fun x => p.length + 1 + x)) l = l := by
    intro l
    induction l with
    | nil => rfl
    | cons a l ih => simp [ih]
  rw [hmap]

theorem z_match_indices_eq (t p : List α) :
    z_match_indices t p =
      some ((List.range t.length).filter (fun i => decide ((t.drop i).take p.length = p))) := by
  unfold z_match_indices
  have hinit_len : (lplInit (zConcat p t)).z_table.length = 1 := rfl
  have hinit_text : (lplInit (zConcat p t)).text = zConcat p t := rfl
  obtain ⟨s0, hw, inv0, htext0, hlen0⟩ :=
    warmup_spec p.length (lplInit (zConcat p t)) (lplInit_inv _)
      (by rw [hinit_len, hinit_text, zConcat_length]; omega)
  rw [hw]
  rw [Option.some_bind]
  rw [runZMatch_spec (zConcat p t) p.length t.length s0 inv0 (htext0.trans hinit_text)
    (by rw [hlen0, hinit_len, zConcat_length]; omega)]
  have h1 : s0.z_table.length = p.length + 1 := by rw [hlen0, hinit_len]; omega
  rw [h1]
  have h2 : (zConcat p t).length - (p.length + 1) = t.length := by
    rw [zConcat_length]
    omega
  rw [h2, match_reindex p t]

end MatchAssembly

section ZClaims

/-- C1: for every finite sequence over an equality-comparable alphabet,
the Z-array production yields exactly `max (length t) 1 - 1` values, the
one at index `j` belonging to position `j + 1`, in increasing position
order, and each value is the length of the longest common prefix of `t`
and the suffix `t[j+1..]`; sequences of length 0 or 1 yield an empty
production. -/
theorem z_array_production_correct {α : Type} [DecidableEq α] (t : List α) :
    ∃ vs, Z.longest_prefix_lengths t = some vs ∧
      vs = (List.range' 1 (t.length - 1)).map (Z.zval t) ∧
      vs.length = max t.length 1 - 1 ∧
      ∀ j v, vs[j]? = some v → Z.IsLcpLen t (j + 1) v := by
  refine ⟨(List.range' 1 (t.length - 1)).map (Z.zval t), ?_, rfl, ?_, ?_⟩
  · unfold Z.longest_prefix_lengths
    have := Z.runZ_spec t t.length (Z.lplInit t) (Z.lplInit_inv t) rfl
      (by simp [Z.lplInit])
    simpa [Z.lplInit] using this
  · simp only [List.length_map, List.length_range']
    omega
  · intro j v hv
    rw [List.getElem?_map] at hv
    by_cases hj : j < t.length - 1
    · rw [List.getElem?_range' _ _ hj] at hv
      simp only [Option.map, Option.some.injEq] at hv
      have hv' : v = Z.zval t (j + 1) := by
        rw [← hv]
        congr 1
        omega
      rw [hv']
      exact Z.zval_isLcpLen t (j + 1) (by omega)
    · rw [List.getElem?_eq_none (by simp [List.length_range']; omega)] at hv
      simp at hv

/-- C3: the pattern-matching iterator yields exactly the indices `i` with
`t[i..i + length p] = p`, in strictly increasing order, overlapping and
adjacent occurrences included; an empty pattern matches at every index
`0..length t` and an empty text yields no matches. -/
theorem z_match_indices_correct {α : Type} [DecidableEq α] (t p : List α) :
    Z.z_match_indices t p =
      some ((List.range t.length).filter (fun i => decide ((t.drop i).take p.length = p))) ∧
    List.Pairwise (· < ·)
      ((List.range t.length).filter (fun i => decide ((t.drop i).take p.length = p))) ∧
    (p = [] → Z.z_match_indices t p = some (List.range t.length)) ∧
    (t = [] → Z.z_match_indices t p = some []) := by
  refine ⟨Z.z_match_indices_eq t p, ?_, ?_, ?_⟩
  · exact (List.pairwise_lt_range t.length).filter _
  · intro hp
    subst hp
    rw [Z.z_match_indices_eq t []]
    congr 1
    apply List.filter_eq_self.mpr
    intro a ha
    simp
  · intro ht
    subst ht
    rw [Z.z_match_indices_eq [] p]
    rfl

/-- C8: after every `update_state` call on a reachable state, the z-box
`[l, r)` matches the prefix of the same length, and the box's right edge
never decreases. -/
theorem z_box_invariant {α : Type} [DecidableEq α] {s s' : Z.ZState α} {b : Bool}
    (hre : Z.ZReach s) (hup : Z.update_state s = some (b, s')) :
    Z.boxOk s'.text s'.boxStart s'.boxEnd ∧ s.boxEnd ≤ s'.boxEnd := by
  have inv := hre.inv
  by_cases hdone : s.text.length ≤ s.z_table.length
  · rw [Z.update_state_done s hdone] at hup
    obtain ⟨rfl, rfl⟩ : b = false ∧ s' = s := by
      constructor <;> { injection hup with h'; cases h'; rfl }
    exact ⟨inv.box, le_refl _⟩
  · push_neg at hdone
    obtain ⟨s'', hup', inv', _, _, hmono, _⟩ := Z.update_state_step s inv hdone
    rw [hup'] at hup
    obtain ⟨rfl, rfl⟩ : b = true ∧ s' = s'' := by
      constructor <;> { injection hup with h'; cases h'; rfl }
    exact ⟨inv'.box, hmono⟩

/-- Witness for C8 on a concrete reachable state. -/
theorem z_box_invariant_witness :
    Z.boxOk (⟨[false, true], 1, 1, [0, 0]⟩ : Z.ZState Bool).text
        (⟨[false, true], 1, 1, [0, 0]⟩ : Z.ZState Bool).boxStart
        (⟨[false, true], 1, 1, [0, 0]⟩ : Z.ZState Bool).boxEnd ∧
      (Z.lplInit [false, true]).boxEnd ≤
        (⟨[false, true], 1, 1, [0, 0]⟩ : Z.ZState Bool).boxEnd :=
  z_box_invariant (Z.ZReach.init [false, true])
    (by decide : Z.update_state (Z.lplInit [false, true]) =
      some (true, ⟨[false, true], 1, 1, [0, 0]⟩))

/-- C10: on every reachable state, the Z step never goes out of bounds:
`update_state` is never `none`, and whenever the in-box branch is taken
the mirror index is a valid z-table index and the slice origins
`boxEnd - index` and `boxEnd` are at most the sequence length. -/
theorem update_state_in_bounds {α : Type} [DecidableEq α] (s : Z.ZState α)
    (hre : Z.ZReach s) :
    (Z.update_state s).isSome ∧
      s.boxEnd ≤ s.text.length ∧
      (s.z_table.length < s.boxEnd →
        s.z_table.length - s.boxStart < s.z_table.length ∧
        s.boxEnd - s.z_table.length ≤ s.text.length) := by
  have inv := hre.inv
  refine ⟨?_, inv.end_le, ?_⟩
  · by_cases hdone : s.text.length ≤ s.z_table.length
    · rw [Z.update_state_done s hdone]
      rfl
    · push_neg at hdone
      obtain ⟨s', hup, _⟩ := Z.update_state_step s inv hdone
      rw [hup]
      rfl
  · intro hbox
    have h1 := inv.start_lt
    have h2 := inv.start_zero
    have h3 := inv.len_pos
    have h4 := inv.end_le
    constructor
    · rcases Nat.eq_zero_or_pos s.boxStart with h0 | hp
      · have := h2 h0
        omega
      · omega
    · omega

/-- Witness for C10 on a concrete reachable state. -/
theorem update_state_in_bounds_witness :
    (Z.update_state (Z.lplInit [true, false])).isSome ∧
      (Z.lplInit [true, false]).boxEnd ≤ (Z.lplInit [true, false]).text.length ∧
      ((Z.lplInit [true, false]).z_table.length < (Z.lplInit [true, false]).boxEnd →
        (Z.lplInit [true, false]).z_table.length - (Z.lplInit [true, false]).boxStart <
          (Z.lplInit [true, false]).z_table.length ∧
        (Z.lplInit [true, false]).boxEnd - (Z.lplInit [true, false]).z_table.length ≤
          (Z.lplInit [true, false]).text.length) :=
  update_state_in_bounds (Z.lplInit [true, false]) (Z.ZReach.init [true, false])

end ZClaims

end Z

namespace UF

section ChaseLemmas

theorem chase_mono {nodes : List UFNode} {f f' id r : Nat}
    (h : chase nodes f id = some r) (hf : f ≤ f') : chase nodes f' id = some r := by
  induction f generalizing id f' with
  | zero => simp [chase] at h
  | succ f ih =>
    obtain ⟨f'', rfl⟩ : ∃ f'', f' = f'' + 1 := ⟨f' - 1, by omega⟩
    rw [chase] at h ⊢
    match hn : nodes[id]? with
    | none => rw [hn] at h; simp at h
    | some (.root l) => rw [hn] at h; exact h
    | some (.child p) => rw [hn] at h; exact ih h (by omega)

theorem chase_det {nodes : List UFNode} {f f' id r r' : Nat}
    (h : chase nodes f id = some r) (h' : chase nodes f' id = some r') : r = r' := by
  have h1 := chase_mono h (le_max_left f f')
  have h2 := chase_mono h' (le_max_right f f')
  rw [h1] at h2
  exact (Option.some.injEq _ _ ▸ h2)

theorem chase_root {nodes : List UFNode} {f id r : Nat}
    (h : chase nodes f id = some r) : rAt nodes r = true ∧ r < nodes.length := by
  induction f generalizing id with
  | zero => simp [chase] at h
  | succ f ih =>
    rw [chase] at h
    match hn : nodes[id]? with
    | none => rw [hn] at h; simp at h
    | some (.root l) =>
      rw [hn] at h
      obtain rfl : id = r := by simpa using h
      refine ⟨by simp [rAt, hn], ?_⟩
      exact (List.getElem?_eq_some.mp hn).1
    | some (.child p) =>
      rw [hn] at h
      exact ih h

theorem chase_start_lt {nodes : List UFNode} {f id r : Nat}
    (h : chase nodes f id = some r) : id < nodes.length := by
  match f with
  | 0 => simp [chase] at h
  | f + 1 =>
    rw [chase] at h
    match hn : nodes[id]? with
    | none => rw [hn] at h; simp at h
    | some x => exact (List.getElem?_eq_some.mp hn).1

theorem lookupKey_mem {κ : Type} [DecidableEq κ] {items : List (κ × Nat)} {k : κ} {id : Nat}
    (h : lookupKey items k = some id) : (k, id) ∈ items := by
  induction items with
  | nil => simp [lookupKey] at h
  | cons p rest ih =>
    obtain ⟨k', id'⟩ := p
    rw [lookupKey] at h
    by_cases hk : k = k'
    · rw [if_pos hk] at h
      obtain rfl : id' = id := by simpa using h
      subst hk
      exact List.mem_cons_self _ _
    · rw [if_neg hk] at h
      exact List.mem_cons_of_mem _ (ih h)

end ChaseLemmas

section CountLemmas

/-- The signed change in a filtered-range count when the predicate changes
at a single point. -/
theorem length_filter_range_point (p q : Nat → Bool) (n a : Nat) (ha : a < n)
    (hne : ∀ j, j ≠ a → p j = q j) :
    (((List.range n).filter q).length : Int) - ((List.range n).filter p).length =
      (if q a then 1 else 0) - (if p a then 1 else 0) := by
  induction n with
  | zero => omega
  | succ n ih =>
    rw [List.range_succ, List.filter_append, List.filter_append,
      List.length_append, List.length_append]
    by_cases han : a = n
    · subst han
      have hfil : (List.range a).filter q = (List.range a).filter p := by
        apply List.filter_congr
        intro x hx
        rw [List.mem_range] at hx
        exact (hne x (by omega)).symm
      rw [hfil]
      simp only [List.filter_cons, List.filter_nil]
      by_cases hq : q a <;> by_cases hp : p a <;>
        simp [hq, hp]
    · have ih' := ih (by omega)
      have hpn : p n = q n := hne n (by omega)
      simp only [List.filter_cons, List.filter_nil, ← hpn]
      by_cases hp : p n <;> simp [hp] <;> omega

/-- Complementary filters over a range split its length. -/
theorem length_filter_range_compl (p : Nat → Bool) (n : Nat) :
    ((List.range n).filter p).length + ((List.range n).filter (fun j => !p j)).length = n := by
  induction n with
  | zero => rfl
  | succ n ih =>
    rw [List.range_succ, List.filter_append, List.filter_append,
      List.length_append, List.length_append]
    simp only [List.filter_cons, List.filter_nil]
    by_cases hp : p n <;> simp [hp] <;> omega

theorem length_filter_range_congr {p q : Nat → Bool} {n : Nat}
    (h : ∀ j, j < n → p j = q j) :
    (List.range n).filter p = (List.range n).filter q := by
  apply List.filter_congr
  intro x hx
  exact h x (List.mem_range.mp hx)

theorem mem_filter_range {p : Nat → Bool} {n a : Nat} :
    a ∈ (List.range n).filter p ↔ a < n ∧ p a = true := by
  rw [List.mem_filter, List.mem_range]

theorem length_filter_range_pos {p : Nat → Bool} {n a : Nat} (ha : a < n)
    (hp : p a = true) : 1 ≤ ((List.range n).filter p).length := by
  have : a ∈ (List.range n).filter p := mem_filter_range.mpr ⟨ha, hp⟩
  exact List.length_pos.mpr (List.ne_nil_of_mem this)

end CountLemmas

end UF

namespace UF

section FindGoLemmas

theorem chase_succ_child {nodes : List UFNode} {j q f rj : Nat}
    (h : nodes[j]? = some (UFNode.child q)) (hc : chase nodes f q = some rj) :
    chase nodes (f + 1) j = some rj := by
  rw [chase, h]
  exact hc

theorem chase_of_root {nodes : List UFNode} {x l f : Nat}
    (h : nodes[x]? = some (UFNode.root l)) (hf : 1 ≤ f) :
    chase nodes f x = some x := by
  obtain ⟨f', rfl⟩ : ∃ f', f = f' + 1 := ⟨f - 1, by omega⟩
  rw [chase, h]

theorem findGo_spec {fuel : Nat} {nodes : List UFNode} {id r len : Nat}
    {nodes' : List UFNode} (h : findGo fuel nodes id = some (r, len, nodes')) :
    nodes[r]? = some (UFNode.root len) ∧
    chase nodes fuel id = some r ∧
    nodes'.length = nodes.length ∧
    (∀ j : Nat, nodes'[j]? = nodes[j]? ∨
      (nodes'[j]? = some (UFNode.child r) ∧ (∃ p, nodes[j]? = some (UFNode.child p)) ∧
        ∃ f, f ≤ fuel ∧ chase nodes f j = some r)) := by
  induction fuel generalizing id nodes' with
  | zero => simp [findGo] at h
  | succ fuel ih =>
    rw [findGo] at h
    split at h
    · simp at h
    · rename_i l hn
      obtain ⟨rfl, rfl, rfl⟩ : id = r ∧ l = len ∧ nodes = nodes' := by
        simpa using h
      refine ⟨hn, ?_, rfl, fun j => Or.inl rfl⟩
      rw [chase, hn]
    · rename_i p hn
      split at h
      · simp at h
      · rename_i r0 len0 nodes0 hrec
        have hid_lt : id < nodes.length := (List.getElem?_eq_some.mp hn).1
        obtain ⟨rfl, rfl, rfl⟩ : r = r0 ∧ len = len0 ∧
            nodes' = nodes0.set id (UFNode.child r0) := by
          have h' := h.symm
          simp only [Option.some.injEq, Prod.mk.injEq] at h'
          exact ⟨h'.1, h'.2.1, h'.2.2⟩
        obtain ⟨hroot, hchase, hlen, hpt⟩ := ih hrec
        have hchase' : chase nodes (fuel + 1) id = some r := by
          rw [chase, hn]
          exact hchase
        refine ⟨hroot, hchase', by simp [hlen], ?_⟩
        intro j
        by_cases hj : j = id
        · subst hj
          refine Or.inr ⟨?_, ⟨p, hn⟩, fuel + 1, le_refl _, hchase'⟩
          rw [List.getElem?_set_eq (by omega)]
        · rw [List.getElem?_set_ne (fun he => hj he.symm)]
          rcases hpt j with heq | ⟨hch, hex, f, hf, hc⟩
          · exact Or.inl heq
          · exact Or.inr ⟨hch, hex, f, by omega, hc⟩

theorem findGo_of_chase {nodes : List UFNode} {f id r : Nat}
    (h : chase nodes f id = some r) :
    ∀ fuel, f ≤ fuel → ∃ len nodes', findGo fuel nodes id = some (r, len, nodes') := by
  induction f generalizing id with
  | zero => simp [chase] at h
  | succ f ih =>
    intro fuel hfuel
    obtain ⟨fu, rfl⟩ : ∃ fu, fuel = fu + 1 := ⟨fuel - 1, by omega⟩
    rw [chase] at h
    match hn : nodes[id]? with
    | none => rw [hn] at h; simp at h
    | some (.root l) =>
      rw [hn] at h
      obtain rfl : id = r := by simpa using h
      exact ⟨l, nodes, by simp only [findGo, hn]⟩
    | some (.child p) =>
      rw [hn] at h
      obtain ⟨len, nodes0, hrec⟩ := ih h fu (by omega)
      exact ⟨len, nodes0.set id (.child r), by simp only [findGo, hn, hrec]⟩

theorem chase_findGo {fuel : Nat} {nodes : List UFNode} {id r len : Nat}
    {nodes' : List UFNode} (h : findGo fuel nodes id = some (r, len, nodes')) :
    ∀ f j rj, chase nodes f j = some rj → chase nodes' f j = some rj := by
  obtain ⟨hroot, hch0, hlen, hpt⟩ := findGo_spec h
  intro f
  induction f with
  | zero => intro j rj hc; simp [chase] at hc
  | succ f ih =>
    intro j rj hc
    have hc_orig := hc
    rw [chase] at hc
    match hn : nodes[j]? with
    | none => rw [hn] at hc; simp at hc
    | some (.root l) =>
      rw [hn] at hc
      obtain rfl : j = rj := by simpa using hc
      rcases hpt j with heq | ⟨hch, ⟨q, hq⟩, hf⟩
      · rw [chase, heq, hn]
      · rw [hn] at hq
        simp at hq
    | some (.child p) =>
      rw [hn] at hc
      have hf1 : 1 ≤ f := by
        match f with
        | 0 => simp [chase] at hc
        | f' + 1 => omega
      rcases hpt j with heq | ⟨hch, hex, f0, hf0, hc0⟩
      · rw [chase, heq, hn]
        exact ih p rj hc
      · have hrr : rj = r := chase_det hc_orig hc0
        have hroot' : nodes'[r]? = some (UFNode.root len) := by
          rcases hpt r with heqr | ⟨hchr, ⟨q, hqr⟩, hfr⟩
          · rw [heqr]
            exact hroot
          · rw [hroot] at hqr
            simp at hqr
        rw [hrr]
        exact chase_succ_child hch (chase_of_root hroot' hf1)

end FindGoLemmas

end UF

namespace UF

section FindLemmas

theorem cAt_eq_not_rAt {nodes : List UFNode} {j : Nat} (hj : j < nodes.length) :
    cAt nodes j = !rAt nodes j := by
  have hx : nodes[j]? = some nodes[j] := List.getElem?_eq_getElem hj
  cases hnode : nodes[j] <;> simp [cAt, rAt, hx, hnode]

theorem childCount_add_rootCount (nodes : List UFNode) :
    childCount nodes + rootCount nodes = nodes.length := by
  unfold childCount rootCount
  have hcong : (List.range nodes.length).filter (rAt nodes) =
      (List.range nodes.length).filter (fun j => !cAt nodes j) := by
    apply length_filter_range_congr
    intro j hj
    rw [cAt_eq_not_rAt hj, Bool.not_not]
  rw [hcong]
  exact length_filter_range_compl (cAt nodes) nodes.length

theorem rootCount_pos {nodes : List UFNode} {r : Nat}
    (h : rAt nodes r = true) (hr : r < nodes.length) : 1 ≤ rootCount nodes :=
  length_filter_range_pos hr h

theorem childCount_le (nodes : List UFNode) : childCount nodes ≤ nodes.length := by
  have := List.length_filter_le (cAt nodes) (List.range nodes.length)
  simpa [childCount] using this

theorem find_missing {κ : Type} [DecidableEq κ] {s : HashUnionFindSets κ} {k : κ}
    (h : lookupKey s.items k = none) : find s k = some (none, s) := by
  rw [find, h]

theorem find_present {κ : Type} [DecidableEq κ] {s : HashUnionFindSets κ} {k : κ} {id : Nat}
    (hwf : WF s) (hid : lookupKey s.items k = some id) :
    ∃ r len nodes',
      find s k = some (some (r, len), { s with nodes := nodes' }) ∧
      keyRoot s k = some r ∧
      s.nodes[r]? = some (UFNode.root len) ∧
      nodes'.length = s.nodes.length ∧
      (∀ f j rj, chase s.nodes f j = some rj → chase nodes' f j = some rj) ∧
      (∀ (j l : Nat), s.nodes[j]? = some (UFNode.root l) →
        nodes'[j]? = some (UFNode.root l)) ∧
      (∀ j, cAt nodes' j = cAt s.nodes j) ∧
      (∀ j, rAt nodes' j = rAt s.nodes j) := by
  obtain ⟨wf1, wf2, wf3, wf4⟩ := hwf
  have hid_lt : id < s.nodes.length := wf1 k id hid
  obtain ⟨r, hchase⟩ : ∃ r, chase s.nodes (childCount s.nodes + 1) id = some r := by
    have := wf2 id hid_lt
    exact Option.isSome_iff_exists.mp this
  have hrroot := chase_root hchase
  have hrc : 1 ≤ rootCount s.nodes := rootCount_pos hrroot.1 hrroot.2
  have hccrc := childCount_add_rootCount s.nodes
  have hfuel : childCount s.nodes + 1 ≤ s.nodes.length := by omega
  obtain ⟨len, nodes', hgo⟩ := findGo_of_chase hchase s.nodes.length hfuel
  obtain ⟨hroot, hchase2, hlen, hpt⟩ := findGo_spec hgo
  refine ⟨r, len, nodes', ?_, ?_, hroot, hlen, chase_findGo hgo, ?_, ?_, ?_⟩
  · simp only [find, hid, hgo]
  · rw [keyRoot, hid, Option.some_bind]
    exact chase_mono hchase (by omega)
  · intro j l hj
    rcases hpt j with heq | ⟨hch, ⟨p, hp⟩, hf⟩
    · rw [heq]
      exact hj
    · rw [hj] at hp
      simp at hp
  · intro j
    rcases hpt j with heq | ⟨hch, ⟨p, hp⟩, hf⟩
    · simp [cAt, heq]
    · simp [cAt, hch, hp]
  · intro j
    rcases hpt j with heq | ⟨hch, ⟨p, hp⟩, hf⟩
    · simp [rAt, heq]
    · simp [rAt, hch, hp]

theorem preserve_wf {κ : Type} [DecidableEq κ] (s : HashUnionFindSets κ)
    (nodes' : List UFNode) (hwf : WF s)
    (hlen : nodes'.length = s.nodes.length)
    (hpres : ∀ f j rj, chase s.nodes f j = some rj → chase nodes' f j = some rj)
    (hcAt : ∀ j, cAt nodes' j = cAt s.nodes j)
    (hrAt : ∀ j, rAt nodes' j = rAt s.nodes j) :
    WF { s with nodes := nodes' } ∧
      (∀ x, keyRoot { s with nodes := nodes' } x = keyRoot s x) := by
  obtain ⟨wf1, wf2, wf3, wf4⟩ := hwf
  have hcc : childCount nodes' = childCount s.nodes := by
    unfold childCount
    rw [hlen, length_filter_range_congr (fun j _ => hcAt j)]
  have hrc : rootCount nodes' = rootCount s.nodes := by
    unfold rootCount
    rw [hlen, length_filter_range_congr (fun j _ => hrAt j)]
  have hkr : ∀ x, keyRoot { s with nodes := nodes' } x = keyRoot s x := by
    intro x
    rw [keyRoot, keyRoot]
    match hx : lookupKey s.items x with
    | none => rfl
    | some idx =>
      rw [Option.some_bind, Option.some_bind]
      have hidx_lt : idx < s.nodes.length := wf1 x idx hx
      obtain ⟨rx, hrx⟩ := Option.isSome_iff_exists.mp (wf2 idx hidx_lt)
      have h1 : chase s.nodes (s.nodes.length + 1) idx = some rx :=
        chase_mono hrx (by have := childCount_le s.nodes; omega)
      have h2 : chase nodes' (nodes'.length + 1) idx = some rx := by
        apply chase_mono (hpres _ _ _ hrx)
        have := childCount_le s.nodes
        omega
      rw [h1]
      exact h2
  refine ⟨⟨?_, ?_, ?_, ?_⟩, hkr⟩
  · intro k id h
    rw [hlen]
    exact wf1 k id h
  · intro id hid
    rw [hlen] at hid
    obtain ⟨rx, hrx⟩ := Option.isSome_iff_exists.mp (wf2 id hid)
    have := hpres _ _ _ hrx
    rw [hcc]
    simp [Option.isSome_iff_exists]
    exact ⟨rx, this⟩
  · show s.set_count = rootCount nodes'
    rw [hrc]
    exact wf3
  · intro id hroot
    rw [hrAt id] at hroot
    obtain ⟨k, hk⟩ := wf4 id hroot
    exact ⟨k, (hkr k).trans hk⟩

end FindLemmas

end UF

namespace UF

section UniteHeapLemmas

theorem rAt_spec {nodes : List UFNode} {x : Nat} (h : rAt nodes x = true) :
    ∃ l, nodes[x]? = some (UFNode.root l) ∧ x < nodes.length := by
  unfold rAt at h
  match hx : nodes[x]? with
  | none => rw [hx] at h; simp at h
  | some (.child p) => rw [hx] at h; simp at h
  | some (.root l) => exact ⟨l, rfl, (List.getElem?_eq_some.mp hx).1⟩

theorem unite_heap_entries {nodes : List UFNode} {w lo lw ll : Nat} (l12 : Nat)
    (hw : nodes[w]? = some (UFNode.root lw)) (hlo : nodes[lo]? = some (UFNode.root ll))
    (hne : w ≠ lo) :
    ((nodes.set w (UFNode.root l12)).set lo (UFNode.child w))[w]? =
        some (UFNode.root l12) ∧
      ((nodes.set w (UFNode.root l12)).set lo (UFNode.child w))[lo]? =
        some (UFNode.child w) ∧
      (∀ j, j ≠ w → j ≠ lo →
        ((nodes.set w (UFNode.root l12)).set lo (UFNode.child w))[j]? = nodes[j]?) ∧
      ((nodes.set w (UFNode.root l12)).set lo (UFNode.child w)).length = nodes.length := by
  have hwlt : w < nodes.length := (List.getElem?_eq_some.mp hw).1
  have hlolt : lo < nodes.length := (List.getElem?_eq_some.mp hlo).1
  refine ⟨?_, ?_, ?_, by simp⟩
  · rw [List.getElem?_set_ne (fun he => hne he.symm), List.getElem?_set_eq (by simpa using hwlt)]
  · rw [List.getElem?_set_eq (by simpa using hlolt)]
  · intro j hjw hjlo
    rw [List.getElem?_set_ne (fun he => hjlo he.symm),
      List.getElem?_set_ne (fun he => hjw he.symm)]

theorem chase_unite {nodes : List UFNode} {w lo lw ll : Nat} (l12 : Nat)
    (hw : nodes[w]? = some (UFNode.root lw)) (hlo : nodes[lo]? = some (UFNode.root ll))
    (hne : w ≠ lo) :
    ∀ f j rj, chase nodes f j = some rj →
      chase ((nodes.set w (UFNode.root l12)).set lo (UFNode.child w)) (f + 1) j =
        some (if rj = lo then w else rj) := by
  obtain ⟨hNw, hNlo, hNother, hNlen⟩ := unite_heap_entries l12 hw hlo hne
  intro f
  induction f with
  | zero => intro j rj hc; simp [chase] at hc
  | succ f ih =>
    intro j rj hc
    rw [chase] at hc
    match hn : nodes[j]? with
    | none => rw [hn] at hc; simp at hc
    | some (.root l) =>
      rw [hn] at hc
      obtain rfl : j = rj := by simpa using hc
      by_cases hjlo : j = lo
      · subst hjlo
        rw [if_pos rfl]
        exact chase_succ_child hNlo (chase_of_root hNw (by omega))
      · rw [if_neg hjlo]
        by_cases hjw : j = w
        · subst hjw
          exact chase_of_root hNw (by omega)
        · exact chase_of_root (by rw [hNother j hjw hjlo]; exact hn) (by omega)
    | some (.child p) =>
      rw [hn] at hc
      have hjw : j ≠ w := by
        intro he
        rw [he, hw] at hn
        simp at hn
      have hjlo : j ≠ lo := by
        intro he
        rw [he, hlo] at hn
        simp at hn
      have hNj : ((nodes.set w (UFNode.root l12)).set lo (UFNode.child w))[j]? =
          some (UFNode.child p) := by
        rw [hNother j hjw hjlo]
        exact hn
      exact chase_succ_child hNj (ih p rj hc)

theorem unite_counts {nodes : List UFNode} {w lo lw ll : Nat} (l12 : Nat)
    (hw : nodes[w]? = some (UFNode.root lw)) (hlo : nodes[lo]? = some (UFNode.root ll))
    (hne : w ≠ lo) :
    childCount ((nodes.set w (UFNode.root l12)).set lo (UFNode.child w)) =
        childCount nodes + 1 ∧
      rootCount ((nodes.set w (UFNode.root l12)).set lo (UFNode.child w)) =
        rootCount nodes - 1 ∧
      1 ≤ rootCount nodes := by
  obtain ⟨hNw, hNlo, hNother, hNlen⟩ := unite_heap_entries l12 hw hlo hne
  have hlolt : lo < nodes.length := (List.getElem?_eq_some.mp hlo).1
  have hcpt : ∀ j, j ≠ lo →
      cAt nodes j = cAt ((nodes.set w (UFNode.root l12)).set lo (UFNode.child w)) j := by
    intro j hj
    by_cases hjw : j = w
    · subst hjw
      simp [cAt, hw, hNw]
    · simp [cAt, hNother j hjw hj]
  have hrpt : ∀ j, j ≠ lo →
      rAt nodes j = rAt ((nodes.set w (UFNode.root l12)).set lo (UFNode.child w)) j := by
    intro j hj
    by_cases hjw : j = w
    · subst hjw
      simp [rAt, hw, hNw]
    · simp [rAt, hNother j hjw hj]
  have hc := length_filter_range_point (cAt nodes)
    (cAt ((nodes.set w (UFNode.root l12)).set lo (UFNode.child w)))
    nodes.length lo hlolt hcpt
  have hr := length_filter_range_point (rAt nodes)
    (rAt ((nodes.set w (UFNode.root l12)).set lo (UFNode.child w)))
    nodes.length lo hlolt hrpt
  rw [if_pos (by simp [cAt, hNlo] : cAt _ lo = true)] at hc
  rw [if_neg (by simp [cAt, hlo] : ¬ cAt nodes lo = true)] at hc
  rw [if_neg (by simp [rAt, hNlo] : ¬ rAt _ lo = true)] at hr
  rw [if_pos (by simp [rAt, hlo] : rAt nodes lo = true)] at hr
  unfold childCount rootCount at *
  rw [hNlen]
  omega

end UniteHeapLemmas

end UF

namespace UF

section QueryLemmas

theorem set_eq_both_present {κ : Type} [DecidableEq κ] [Repr κ] {s : HashUnionFindSets κ}
    {k1 k2 : κ} {id1 id2 : Nat} (hwf : WF s)
    (h1 : lookupKey s.items k1 = some id1) (h2 : lookupKey s.items k2 = some id2) :
    ∃ r1 r2 s', set_eq s k1 k2 = some (.ok (decide (r1 = r2)), s') ∧
      keyRoot s k1 = some r1 ∧ keyRoot s k2 = some r2 ∧
      WF s' ∧ s'.items = s.items ∧ s'.set_count = s.set_count ∧
      s'.nodes.length = s.nodes.length ∧
      (∀ x, keyRoot s' x = keyRoot s x) ∧
      (∀ (j l : Nat), s.nodes[j]? = some (UFNode.root l) →
        s'.nodes[j]? = some (UFNode.root l)) := by
  obtain ⟨r1, len1, nodesA, hfindA, hkr1, hroot1, hlenA, hpresA, hrootsA, hcA, hrA⟩ :=
    find_present hwf h1
  obtain ⟨hwfA, hkrA⟩ := preserve_wf s nodesA hwf hlenA hpresA hcA hrA
  have h2A : lookupKey ({ s with nodes := nodesA } : HashUnionFindSets κ).items k2 =
      some id2 := h2
  obtain ⟨r2, len2, nodesB, hfindB, hkr2, hroot2, hlenB, hpresB, hrootsB, hcB, hrB⟩ :=
    find_present hwfA h2A
  obtain ⟨hwfB, hkrB⟩ := preserve_wf _ nodesB hwfA hlenB hpresB hcB hrB
  refine ⟨r1, r2, _, ?_, hkr1, (hkrA k2).symm.trans hkr2, hwfB, rfl, rfl, ?_, ?_, ?_⟩
  · simp only [set_eq, hfindA, hfindB]
  · simp [hlenB, hlenA]
  · intro x
    exact (hkrB x).trans (hkrA x)
  · intro j l hj
    exact hrootsB j l (hrootsA j l hj)

theorem set_eq_k2_missing {κ : Type} [DecidableEq κ] [Repr κ] {s : HashUnionFindSets κ}
    {k1 k2 : κ} {id1 : Nat} (hwf : WF s)
    (h1 : lookupKey s.items k1 = some id1) (h2 : lookupKey s.items k2 = none) :
    ∃ s', set_eq s k1 k2 = some (.error (error_msg [reprStr k2]), s') ∧
      WF s' ∧ s'.items = s.items ∧ s'.set_count = s.set_count ∧
      s'.nodes.length = s.nodes.length ∧
      (∀ x, keyRoot s' x = keyRoot s x) ∧
      (∀ (j l : Nat), s.nodes[j]? = some (UFNode.root l) →
        s'.nodes[j]? = some (UFNode.root l)) := by
  obtain ⟨r1, len1, nodesA, hfindA, hkr1, hroot1, hlenA, hpresA, hrootsA, hcA, hrA⟩ :=
    find_present hwf h1
  obtain ⟨hwfA, hkrA⟩ := preserve_wf s nodesA hwf hlenA hpresA hcA hrA
  have h2A : lookupKey ({ s with nodes := nodesA } : HashUnionFindSets κ).items k2 =
      none := h2
  refine ⟨_, ?_, hwfA, rfl, rfl, hlenA, hkrA, hrootsA⟩
  simp only [set_eq, hfindA, find_missing h2A]

theorem set_eq_k1_missing {κ : Type} [DecidableEq κ] [Repr κ] {s : HashUnionFindSets κ}
    {k1 k2 : κ} {id2 : Nat} (hwf : WF s)
    (h1 : lookupKey s.items k1 = none) (h2 : lookupKey s.items k2 = some id2) :
    ∃ s', set_eq s k1 k2 = some (.error (error_msg [reprStr k1]), s') ∧
      WF s' ∧ s'.items = s.items ∧ s'.set_count = s.set_count ∧
      s'.nodes.length = s.nodes.length ∧
      (∀ x, keyRoot s' x = keyRoot s x) ∧
      (∀ (j l : Nat), s.nodes[j]? = some (UFNode.root l) →
        s'.nodes[j]? = some (UFNode.root l)) := by
  obtain ⟨r2, len2, nodesA, hfindA, hkr2, hroot2, hlenA, hpresA, hrootsA, hcA, hrA⟩ :=
    find_present hwf h2
  obtain ⟨hwfA, hkrA⟩ := preserve_wf s nodesA hwf hlenA hpresA hcA hrA
  refine ⟨_, ?_, hwfA, rfl, rfl, hlenA, hkrA, hrootsA⟩
  simp only [set_eq, find_missing h1, hfindA]

theorem set_eq_both_missing {κ : Type} [DecidableEq κ] [Repr κ] {s : HashUnionFindSets κ}
    {k1 k2 : κ} (h1 : lookupKey s.items k1 = none) (h2 : lookupKey s.items k2 = none) :
    set_eq s k1 k2 = some (.error (error_msg [reprStr k1, reprStr k2]), s) := by
  simp only [set_eq, find_missing h1, find_missing h2]

theorem len_of_present {κ : Type} [DecidableEq κ] [Repr κ] {s : HashUnionFindSets κ}
    {k : κ} {id : Nat} (hwf : WF s) (h : lookupKey s.items k = some id) :
    ∃ r len s', len_of s k = some (.ok len, s') ∧
      keyRoot s k = some r ∧ s.nodes[r]? = some (UFNode.root len) ∧
      WF s' ∧ s'.items = s.items ∧ s'.set_count = s.set_count ∧
      s'.nodes.length = s.nodes.length ∧
      (∀ x, keyRoot s' x = keyRoot s x) ∧
      (∀ (j l : Nat), s.nodes[j]? = some (UFNode.root l) →
        s'.nodes[j]? = some (UFNode.root l)) := by
  obtain ⟨r, len, nodesA, hfindA, hkr, hroot, hlenA, hpresA, hrootsA, hcA, hrA⟩ :=
    find_present hwf h
  obtain ⟨hwfA, hkrA⟩ := preserve_wf s nodesA hwf hlenA hpresA hcA hrA
  refine ⟨r, len, _, ?_, hkr, hroot, hwfA, rfl, rfl, hlenA, hkrA, hrootsA⟩
  simp only [len_of, hfindA]

theorem len_of_missing {κ : Type} [DecidableEq κ] [Repr κ] {s : HashUnionFindSets κ}
    {k : κ} (h : lookupKey s.items k = none) :
    len_of s k = some (.error (error_msg [reprStr k]), s) := by
  simp only [len_of, find_missing h]

end QueryLemmas

end UF

namespace UF

section UniteStateLemmas

theorem two_le_rootCount {nodes : List UFNode} {w lo : Nat}
    (hw : rAt nodes w = true) (hlo : rAt nodes lo = true) (hne : w ≠ lo)
    (hwlt : w < nodes.length) (hlolt : lo < nodes.length) :
    2 ≤ rootCount nodes := by
  have hmem_w : w ∈ (List.range nodes.length).filter (rAt nodes) :=
    mem_filter_range.mpr ⟨hwlt, hw⟩
  have hmem_lo : lo ∈ (List.range nodes.length).filter (rAt nodes) :=
    mem_filter_range.mpr ⟨hlolt, hlo⟩
  have hnodup : ((List.range nodes.length).filter (rAt nodes)).Nodup :=
    (List.nodup_range nodes.length).filter _
  rw [rootCount]
  match hl : (List.range nodes.length).filter (rAt nodes) with
  | [] => rw [hl] at hmem_w; simp at hmem_w
  | [a] =>
    rw [hl] at hmem_w hmem_lo
    simp at hmem_w hmem_lo
    exact absurd (hmem_w.trans hmem_lo.symm) hne
  | a :: b :: rest => simp

/-- The whole-state effect of the merging half of `unite`, applied to the
post-compression state: well-formedness is preserved, the loser root
becomes a child of the winner, and every key's root is rewritten through
the collapse of `lo` into `w`. -/
theorem unite_state_spec {κ : Type} [DecidableEq κ] (s2 : HashUnionFindSets κ)
    (hwf2 : WF s2) (w lo lw ll l12 : Nat)
    (hw : s2.nodes[w]? = some (UFNode.root lw)) (hlo : s2.nodes[lo]? = some (UFNode.root ll))
    (hne : w ≠ lo) :
    WF { s2 with
          set_count := s2.set_count - 1,
          nodes := (s2.nodes.set w (UFNode.root l12)).set lo (UFNode.child w) } ∧
      2 ≤ s2.set_count ∧
      ((s2.nodes.set w (UFNode.root l12)).set lo (UFNode.child w)).length =
        s2.nodes.length ∧
      ((s2.nodes.set w (UFNode.root l12)).set lo (UFNode.child w))[w]? =
        some (UFNode.root l12) ∧
      ((s2.nodes.set w (UFNode.root l12)).set lo (UFNode.child w))[lo]? =
        some (UFNode.child w) ∧
      (∀ x, keyRoot { s2 with
            set_count := s2.set_count - 1,
            nodes := (s2.nodes.set w (UFNode.root l12)).set lo (UFNode.child w) } x =
          (keyRoot s2 x).map (fun rx => if rx = lo then w else rx)) := by
  obtain ⟨wf1, wf2, wf3, wf4⟩ := hwf2
  obtain ⟨hNw, hNlo, hNother, hNlen⟩ := unite_heap_entries l12 hw hlo hne
  have hchase := chase_unite l12 hw hlo hne
  obtain ⟨hcc, hrc, hrcpos⟩ := unite_counts l12 hw hlo hne
  have hwlt : w < s2.nodes.length := (List.getElem?_eq_some.mp hw).1
  have hlolt : lo < s2.nodes.length := (List.getElem?_eq_some.mp hlo).1
  have hrAtw : rAt s2.nodes w = true := by simp [rAt, hw]
  have hrAtlo : rAt s2.nodes lo = true := by simp [rAt, hlo]
  have hrc2 : 2 ≤ rootCount s2.nodes := two_le_rootCount hrAtw hrAtlo hne hwlt hlolt
  have hccrc := childCount_add_rootCount s2.nodes
  have hfuel_ok : childCount s2.nodes + 2 ≤ s2.nodes.length + 1 := by omega
  -- key-to-root rewriting
  have hkrN : ∀ x, keyRoot { s2 with
      set_count := s2.set_count - 1,
      nodes := (s2.nodes.set w (UFNode.root l12)).set lo (UFNode.child w) } x =
      (keyRoot s2 x).map (fun rx => if rx = lo then w else rx) := by
    intro x
    rw [keyRoot, keyRoot]
    match hx : lookupKey s2.items x with
    | none => rfl
    | some idx =>
      rw [Option.some_bind, Option.some_bind]
      have hidx_lt : idx < s2.nodes.length := wf1 x idx hx
      obtain ⟨rx, hrx⟩ := Option.isSome_iff_exists.mp (wf2 idx hidx_lt)
      have h1 : chase s2.nodes (s2.nodes.length + 1) idx = some rx :=
        chase_mono hrx (by omega)
      have h2 := hchase _ idx rx hrx
      have h3 : chase ((s2.nodes.set w (UFNode.root l12)).set lo (UFNode.child w))
          (((s2.nodes.set w (UFNode.root l12)).set lo (UFNode.child w)).length + 1) idx =
          some (if rx = lo then w else rx) := by
        apply chase_mono h2
        rw [hNlen]
        omega
      rw [h1, h3]
      rfl
  refine ⟨⟨?_, ?_, ?_, ?_⟩, by omega, hNlen, hNw, hNlo, hkrN⟩
  · intro k id h
    rw [hNlen]
    exact wf1 k id h
  · intro id hid
    rw [hNlen] at hid
    obtain ⟨rx, hrx⟩ := Option.isSome_iff_exists.mp (wf2 id hid)
    have h2 := hchase _ id rx hrx
    rw [hcc]
    have : childCount s2.nodes + 1 + 1 = childCount s2.nodes + 2 := by omega
    rw [this] at h2
    simp only [Option.isSome_iff_exists]
    exact ⟨_, by rw [show childCount s2.nodes + 2 = childCount s2.nodes + 1 + 1 from rfl]; exact h2⟩
  · show s2.set_count - 1 = rootCount _
    rw [hrc]
    omega
  · intro id hroot
    obtain ⟨l, hl, hllt⟩ := rAt_spec hroot
    by_cases hidlo : id = lo
    · subst hidlo
      rw [hNlo] at hl
      simp at hl
    · by_cases hidw : id = w
      · subst hidw
        obtain ⟨k, hk⟩ := wf4 id hrAtw
        refine ⟨k, ?_⟩
        rw [hkrN k, hk]
        simp [hne]
      · have hid2 : s2.nodes[id]? = some (UFNode.root l) := by
          rw [← hNother id hidw hidlo]
          exact hl
        have : rAt s2.nodes id = true := by simp [rAt, hid2]
        obtain ⟨k, hk⟩ := wf4 id this
        refine ⟨k, ?_⟩
        rw [hkrN k, hk]
        simp [hidlo]

end UniteStateLemmas

end UF

namespace UF

section UniteOpLemmas

theorem unite_same_root {κ : Type} [DecidableEq κ] [Repr κ] {s : HashUnionFindSets κ}
    {k1 k2 : κ} {id1 id2 : Nat} (hwf : WF s)
    (h1 : lookupKey s.items k1 = some id1) (h2 : lookupKey s.items k2 = some id2)
    (hsame : keyRoot s k1 = keyRoot s k2) :
    ∃ s', unite s k1 k2 = some (.ok false, s') ∧ WF s' ∧
      s'.items = s.items ∧ s'.set_count = s.set_count ∧
      s'.nodes.length = s.nodes.length ∧
      (∀ x, keyRoot s' x = keyRoot s x) ∧
      (∀ (j l : Nat), s.nodes[j]? = some (UFNode.root l) →
        s'.nodes[j]? = some (UFNode.root l)) := by
  obtain ⟨r1, len1, nodesA, hfindA, hkr1, hroot1, hlenA, hpresA, hrootsA, hcA, hrA⟩ :=
    find_present hwf h1
  obtain ⟨hwfA, hkrA⟩ := preserve_wf s nodesA hwf hlenA hpresA hcA hrA
  have h2A : lookupKey ({ s with nodes := nodesA } : HashUnionFindSets κ).items k2 =
      some id2 := h2
  obtain ⟨r2, len2, nodesB, hfindB, hkr2, hroot2, hlenB, hpresB, hrootsB, hcB, hrB⟩ :=
    find_present hwfA h2A
  obtain ⟨hwfB, hkrB⟩ := preserve_wf _ nodesB hwfA hlenB hpresB hcB hrB
  have hkr2' : keyRoot s k2 = some r2 := (hkrA k2).symm.trans hkr2
  have hrr : r1 = r2 := by
    rw [hsame, hkr2'] at hkr1
    exact (Option.some.injEq _ _ ▸ hkr1.symm)
  refine ⟨_, ?_, hwfB, rfl, rfl, ?_, ?_, ?_⟩
  · simp only [unite, hfindA, hfindB, if_pos hrr]
  · simp [hlenB, hlenA]
  · intro x
    exact (hkrB x).trans (hkrA x)
  · intro j l hj
    exact hrootsB j l (hrootsA j l hj)

theorem unite_diff_root {κ : Type} [DecidableEq κ] [Repr κ] {s : HashUnionFindSets κ}
    {k1 k2 : κ} {id1 id2 r1 r2 : Nat} (hwf : WF s)
    (h1 : lookupKey s.items k1 = some id1) (h2 : lookupKey s.items k2 = some id2)
    (hkr1 : keyRoot s k1 = some r1) (hkr2 : keyRoot s k2 = some r2)
    (hne : r1 ≠ r2) :
    ∃ len1 len2 s',
      s.nodes[r1]? = some (UFNode.root len1) ∧
      s.nodes[r2]? = some (UFNode.root len2) ∧
      unite s k1 k2 = some (.ok true, s') ∧
      WF s' ∧ s'.items = s.items ∧
      s'.set_count = s.set_count - 1 ∧ 2 ≤ s.set_count ∧
      s'.nodes.length = s.nodes.length ∧
      s'.nodes[if len1 < len2 then r2 else r1]? = some (UFNode.root (len1 + len2)) ∧
      s'.nodes[if len1 < len2 then r1 else r2]? =
        some (UFNode.child (if len1 < len2 then r2 else r1)) ∧
      (∀ x, keyRoot s' x = (keyRoot s x).map
        (fun rx => if rx = (if len1 < len2 then r1 else r2)
                   then (if len1 < len2 then r2 else r1) else rx)) := by
  obtain ⟨r1', len1, nodesA, hfindA, hkr1', hroot1, hlenA, hpresA, hrootsA, hcA, hrA⟩ :=
    find_present hwf h1
  have hrr1 : r1 = r1' := by
    rw [hkr1'] at hkr1
    simpa using hkr1.symm
  subst hrr1
  obtain ⟨hwfA, hkrA⟩ := preserve_wf s nodesA hwf hlenA hpresA hcA hrA
  have h2A : lookupKey ({ s with nodes := nodesA } : HashUnionFindSets κ).items k2 =
      some id2 := h2
  obtain ⟨r2', len2, nodesB, hfindB, hkr2', hroot2, hlenB, hpresB, hrootsB, hcB, hrB⟩ :=
    find_present hwfA h2A
  have hrr2 : r2 = r2' := by
    rw [(hkrA k2).symm.trans hkr2'] at hkr2
    simpa using hkr2.symm
  subst hrr2
  obtain ⟨hwfB, hkrB⟩ := preserve_wf _ nodesB hwfA hlenB hpresB hcB hrB
  -- the untouched root entry of `r2` back in `s`
  have hroot2s : s.nodes[r2]? = some (UFNode.root len2) := by
    have hchain : chase s.nodes (s.nodes.length + 1) id2 = some r2 := by
      have := hkr2
      rw [keyRoot, h2, Option.some_bind] at this
      exact this
    obtain ⟨hroot_r2, hlt_r2⟩ := chase_root hchain
    obtain ⟨l, hl, _⟩ := rAt_spec hroot_r2
    have := hrootsA r2 l hl
    rw [hroot2] at this
    obtain rfl : len2 = l := by simpa using this
    exact hl
  -- root entries in the twice-compressed arena
  have hroot1B : nodesB[r1]? = some (UFNode.root len1) := hrootsB r1 len1 (hrootsA r1 len1 hroot1)
  have hroot2B : nodesB[r2]? = some (UFNode.root len2) := hrootsB r2 len2 hroot2
  set s2 : HashUnionFindSets κ :=
    { set_count := s.set_count, items := s.items, nodes := nodesB } with hs2
  have hkr12 : ∀ x, keyRoot s2 x = keyRoot s x := fun x => (hkrB x).trans (hkrA x)
  by_cases hlen12 : len1 < len2
  · -- r2 wins, r1 becomes the child
    obtain ⟨hwfN, hsc2, hNlen, hNw, hNlo, hkrN⟩ :=
      unite_state_spec s2 hwfB r2 r1 len2 len1 (len1 + len2) hroot2B hroot1B
        (fun he => hne he.symm)
    refine ⟨len1, len2, _, hroot1, hroot2s, ?_, hwfN, rfl, rfl, ?_, ?_, ?_, ?_, ?_⟩
    · simp only [unite, hfindA, hfindB, if_neg hne, if_pos hlen12]
    · have hs2c : s2.set_count = s.set_count := rfl
      omega
    · simp only [hNlen, hlenB, hlenA]
    · rw [if_pos hlen12]
      exact hNw
    · rw [if_pos hlen12, if_pos hlen12]
      exact hNlo
    · intro x
      rw [hkrN x, hkr12 x]
      simp only [if_pos hlen12]
  · -- r1 wins, r2 becomes the child
    obtain ⟨hwfN, hsc2, hNlen, hNw, hNlo, hkrN⟩ :=
      unite_state_spec s2 hwfB r1 r2 len1 len2 (len1 + len2) hroot1B hroot2B hne
    refine ⟨len1, len2, _, hroot1, hroot2s, ?_, hwfN, rfl, rfl, ?_, ?_, ?_, ?_, ?_⟩
    · simp only [unite, hfindA, hfindB, if_neg hne, if_neg hlen12]
    · have hs2c : s2.set_count = s.set_count := rfl
      omega
    · simp only [hNlen, hlenB, hlenA]
    · rw [if_neg hlen12]
      exact hNw
    · rw [if_neg hlen12, if_neg hlen12]
      exact hNlo
    · intro x
      rw [hkrN x, hkr12 x]
      simp only [if_neg hlen12]

theorem unite_k2_missing {κ : Type} [DecidableEq κ] [Repr κ] {s : HashUnionFindSets κ}
    {k1 k2 : κ} {id1 : Nat} (hwf : WF s)
    (h1 : lookupKey s.items k1 = some id1) (h2 : lookupKey s.items k2 = none) :
    ∃ s', unite s k1 k2 = some (.error (error_msg [reprStr k2]), s') ∧
      WF s' ∧ s'.items = s.items ∧ s'.set_count = s.set_count ∧
      s'.nodes.length = s.nodes.length ∧
      (∀ x, keyRoot s' x = keyRoot s x) ∧
      (∀ (j l : Nat), s.nodes[j]? = some (UFNode.root l) →
        s'.nodes[j]? = some (UFNode.root l)) := by
  obtain ⟨r1, len1, nodesA, hfindA, hkr1, hroot1, hlenA, hpresA, hrootsA, hcA, hrA⟩ :=
    find_present hwf h1
  obtain ⟨hwfA, hkrA⟩ := preserve_wf s nodesA hwf hlenA hpresA hcA hrA
  have h2A : lookupKey ({ s with nodes := nodesA } : HashUnionFindSets κ).items k2 =
      none := h2
  refine ⟨_, ?_, hwfA, rfl, rfl, hlenA, hkrA, hrootsA⟩
  simp only [unite, hfindA, find_missing h2A]

theorem unite_k1_missing {κ : Type} [DecidableEq κ] [Repr κ] {s : HashUnionFindSets κ}
    {k1 k2 : κ} {id2 : Nat} (hwf : WF s)
    (h1 : lookupKey s.items k1 = none) (h2 : lookupKey s.items k2 = some id2) :
    ∃ s', unite s k1 k2 = some (.error (error_msg [reprStr k1]), s') ∧
      WF s' ∧ s'.items = s.items ∧ s'.set_count = s.set_count ∧
      s'.nodes.length = s.nodes.length ∧
      (∀ x, keyRoot s' x = keyRoot s x) ∧
      (∀ (j l : Nat), s.nodes[j]? = some (UFNode.root l) →
        s'.nodes[j]? = some (UFNode.root l)) := by
  obtain ⟨r2, len2, nodesA, hfindA, hkr2, hroot2, hlenA, hpresA, hrootsA, hcA, hrA⟩ :=
    find_present hwf h2
  obtain ⟨hwfA, hkrA⟩ := preserve_wf s nodesA hwf hlenA hpresA hcA hrA
  refine ⟨_, ?_, hwfA, rfl, rfl, hlenA, hkrA, hrootsA⟩
  simp only [unite, find_missing h1, hfindA]

theorem unite_both_missing {κ : Type} [DecidableEq κ] [Repr κ] {s : HashUnionFindSets κ}
    {k1 k2 : κ} (h1 : lookupKey s.items k1 = none) (h2 : lookupKey s.items k2 = none) :
    unite s k1 k2 = some (.error (error_msg [reprStr k1, reprStr k2]), s) := by
  simp only [unite, find_missing h1, find_missing h2]

end UniteOpLemmas

end UF

namespace UF

section ConnectedLemmas

variable {κ : Type}

theorem Connected.mono {pairs : List (κ × κ)} {q : κ × κ} {x y : κ}
    (h : Connected pairs x y) : Connected (pairs ++ [q]) x y := by
  induction h with
  | refl a => exact Connected.refl a
  | pair hp => exact Connected.pair (List.mem_append_left _ hp)
  | symm _ ih => exact ih.symm
  | trans _ _ ih1 ih2 => exact ih1.trans ih2

theorem connected_append_iff {pairs : List (κ × κ)} {a b x y : κ} :
    Connected (pairs ++ [(a, b)]) x y ↔
      Connected pairs x y ∨
      (Connected pairs x a ∧ Connected pairs b y) ∨
      (Connected pairs x b ∧ Connected pairs a y) := by
  constructor
  · intro h
    induction h with
    | refl c => exact Or.inl (Connected.refl c)
    | pair hp =>
      rename_i c d
      rcases List.mem_append.mp hp with hin | hone
      · exact Or.inl (Connected.pair hin)
      · simp only [List.mem_singleton, Prod.mk.injEq] at hone
        obtain ⟨rfl, rfl⟩ := hone
        exact Or.inr (Or.inl ⟨Connected.refl _, Connected.refl _⟩)
    | symm _ ih =>
      rcases ih with h1 | ⟨h1, h2⟩ | ⟨h1, h2⟩
      · exact Or.inl h1.symm
      · exact Or.inr (Or.inr ⟨h2.symm, h1.symm⟩)
      · exact Or.inr (Or.inl ⟨h2.symm, h1.symm⟩)
    | trans _ _ ih1 ih2 =>
      rcases ih1 with h1 | ⟨h1, h2⟩ | ⟨h1, h2⟩ <;>
        rcases ih2 with h3 | ⟨h3, h4⟩ | ⟨h3, h4⟩
      · exact Or.inl (h1.trans h3)
      · exact Or.inr (Or.inl ⟨h1.trans h3, h4⟩)
      · exact Or.inr (Or.inr ⟨h1.trans h3, h4⟩)
      · exact Or.inr (Or.inl ⟨h1, h2.trans h3⟩)
      · exact Or.inl ((h1.trans h3.symm).trans (h2.symm.trans h4))
      · exact Or.inl (h1.trans h4)
      · exact Or.inr (Or.inr ⟨h1, h2.trans h3⟩)
      · exact Or.inl (h1.trans h4)
      · exact Or.inl (h1.trans (h3.symm.trans (h2.symm.trans h4)))
  · intro h
    rcases h with h1 | ⟨h1, h2⟩ | ⟨h1, h2⟩
    · exact h1.mono
    · exact (h1.mono.trans (Connected.pair (List.mem_append_right _ (by simp)))).trans h2.mono
    · exact (h1.mono.trans
        (Connected.pair (List.mem_append_right _ (by simp))).symm).trans h2.mono

theorem connected_append_redundant {pairs : List (κ × κ)} {a b x y : κ}
    (hab : Connected pairs a b) :
    Connected (pairs ++ [(a, b)]) x y ↔ Connected pairs x y := by
  rw [connected_append_iff]
  constructor
  · intro h
    rcases h with h1 | ⟨h1, h2⟩ | ⟨h1, h2⟩
    · exact h1
    · exact (h1.trans hab).trans h2
    · exact (h1.trans hab.symm).trans h2
  · exact Or.inl

theorem connected_mentions {pairs : List (κ × κ)} {x y : κ}
    (h : Connected pairs x y) :
    x = y ∨ ((∃ p ∈ pairs, p.1 = x ∨ p.2 = x) ∧ (∃ p ∈ pairs, p.1 = y ∨ p.2 = y)) := by
  induction h with
  | refl a => exact Or.inl rfl
  | pair hp =>
    rename_i c d
    exact Or.inr ⟨⟨_, hp, Or.inl rfl⟩, ⟨_, hp, Or.inr rfl⟩⟩
  | symm _ ih =>
    rcases ih with heq | ⟨hm1, hm2⟩
    · exact Or.inl heq.symm
    · exact Or.inr ⟨hm2, hm1⟩
  | trans _ _ ih1 ih2 =>
    rcases ih1 with heq1 | ⟨hm1, hm2⟩
    · rcases ih2 with heq2 | ⟨hm3, hm4⟩
      · exact Or.inl (heq1.trans heq2)
      · exact Or.inr ⟨heq1 ▸ hm3, hm4⟩
    · rcases ih2 with heq2 | ⟨hm3, hm4⟩
      · exact Or.inr ⟨hm1, heq2 ▸ hm2⟩
      · exact Or.inr ⟨hm1, hm4⟩

theorem connected_unmentioned {pairs : List (κ × κ)} {x y : κ}
    (h : Connected pairs x y)
    (hx : ∀ p ∈ pairs, p.1 ≠ x ∧ p.2 ≠ x) : x = y := by
  rcases connected_mentions h with heq | ⟨⟨p, hp, hor⟩, hm2⟩
  · exact heq
  · rcases hor with h1 | h2
    · exact absurd h1 (hx p hp).1
    · exact absurd h2 (hx p hp).2

end ConnectedLemmas

end UF

namespace UF

section AddLemmas

theorem chase_append {nodes : List UFNode} {x : UFNode} {f j r : Nat}
    (h : chase nodes f j = some r) : chase (nodes ++ [x]) f j = some r := by
  induction f generalizing j with
  | zero => simp [chase] at h
  | succ f ih =>
    rw [chase] at h ⊢
    match hn : nodes[j]? with
    | none => rw [hn] at h; simp at h
    | some (.root l) =>
      rw [hn] at h
      rw [List.getElem?_append_left (List.getElem?_eq_some.mp hn).1, hn]
      exact h
    | some (.child p) =>
      rw [hn] at h
      rw [List.getElem?_append_left (List.getElem?_eq_some.mp hn).1, hn]
      exact ih h

theorem cAt_append_root {nodes : List UFNode} {l : Nat} (j : Nat) :
    cAt (nodes ++ [UFNode.root l]) j = cAt nodes j := by
  unfold cAt
  by_cases hj : j < nodes.length
  · rw [List.getElem?_append_left hj]
  · have h2 : nodes[j]? = none := List.getElem?_eq_none (by omega)
    by_cases hj2 : j = nodes.length
    · have h1 : (nodes ++ [UFNode.root l])[j]? = some (UFNode.root l) := by
        subst hj2
        rw [List.getElem?_append_right (le_refl _)]
        simp
      rw [h1, h2]
    · have h1 : (nodes ++ [UFNode.root l])[j]? = none := by
        apply List.getElem?_eq_none
        simp only [List.length_append, List.length_cons, List.length_nil]
        omega
      rw [h1, h2]

theorem childCount_append_root (nodes : List UFNode) (l : Nat) :
    childCount (nodes ++ [UFNode.root l]) = childCount nodes := by
  unfold childCount
  rw [List.length_append, List.length_cons, List.length_nil, List.range_succ,
    List.filter_append, List.length_append]
  have h1 : (List.range nodes.length).filter (cAt (nodes ++ [UFNode.root l])) =
      (List.range nodes.length).filter (cAt nodes) := by
    apply length_filter_range_congr
    intro j _
    exact cAt_append_root j
  rw [h1]
  have h2 : cAt (nodes ++ [UFNode.root l]) nodes.length = false := by
    rw [cAt_append_root]
    unfold cAt
    rw [List.getElem?_eq_none (le_refl _)]
  simp [List.filter_cons, h2]

theorem rootCount_append_root (nodes : List UFNode) (l : Nat) :
    rootCount (nodes ++ [UFNode.root l]) = rootCount nodes + 1 := by
  unfold rootCount
  rw [List.length_append, List.length_cons, List.length_nil, List.range_succ,
    List.filter_append, List.length_append]
  have h1 : (List.range nodes.length).filter (rAt (nodes ++ [UFNode.root l])) =
      (List.range nodes.length).filter (rAt nodes) := by
    apply length_filter_range_congr
    intro j hj
    unfold rAt
    rw [List.getElem?_append_left hj]
  rw [h1]
  have h2 : rAt (nodes ++ [UFNode.root l]) nodes.length = true := by
    unfold rAt
    rw [List.getElem?_append_right (le_refl _)]
    simp
  simp [List.filter_cons, h2]

theorem lookupKey_cons {κ : Type} [DecidableEq κ] {items : List (κ × Nat)} {k k' : κ}
    {id : Nat} :
    lookupKey ((k', id) :: items) k = if k = k' then some id else lookupKey items k := rfl

/-- The full specification of `add` on a well-formed forest when the key
is new: the key gets a fresh singleton root, everything else is
untouched. -/
theorem add_new_spec {κ : Type} [DecidableEq κ] {s : HashUnionFindSets κ} {k : κ}
    (hwf : WF s) (hk : lookupKey s.items k = none) :
    add s k = (true, ⟨s.set_count + 1, (k, s.nodes.length) :: s.items,
      s.nodes ++ [UFNode.root 1]⟩) ∧
    WF (add s k).2 ∧
    (∀ x, lookupKey (add s k).2.items x =
      if x = k then some s.nodes.length else lookupKey s.items x) ∧
    (∀ x, keyRoot (add s k).2 x =
      if x = k then some s.nodes.length else keyRoot s x) := by
  obtain ⟨wf1, wf2, wf3, wf4⟩ := hwf
  have hadd : add s k = (true, ⟨s.set_count + 1, (k, s.nodes.length) :: s.items,
      s.nodes ++ [UFNode.root 1]⟩) := by
    rw [add, hk]
  have hlook : ∀ x, lookupKey ((k, s.nodes.length) :: s.items) x =
      if x = k then some s.nodes.length else lookupKey s.items x := by
    intro x
    rw [lookupKey_cons]
  have hnew_root : (s.nodes ++ [UFNode.root 1])[s.nodes.length]? =
      some (UFNode.root 1) := by
    rw [List.getElem?_append_right (le_refl _)]
    simp
  have hchase_new : ∀ f, 1 ≤ f →
      chase (s.nodes ++ [UFNode.root 1]) f s.nodes.length = some s.nodes.length :=
    fun f hf => chase_of_root hnew_root hf
  have hkr : ∀ x, keyRoot (add s k).2 x =
      if x = k then some s.nodes.length else keyRoot s x := by
    intro x
    rw [hadd]
    rw [keyRoot]
    simp only [hlook]
    by_cases hx : x = k
    · rw [if_pos hx, if_pos hx, Option.some_bind]
      exact hchase_new _ (by omega)
    · rw [if_neg hx, if_neg hx, keyRoot]
      match hlx : lookupKey s.items x with
      | none => rfl
      | some idx =>
        rw [Option.some_bind, Option.some_bind]
        have hidx_lt : idx < s.nodes.length := wf1 x idx hlx
        obtain ⟨rx, hrx⟩ := Option.isSome_iff_exists.mp (wf2 idx hidx_lt)
        have h1 : chase s.nodes (s.nodes.length + 1) idx = some rx :=
          chase_mono hrx (by have := childCount_le s.nodes; omega)
        rw [h1]
        have h2 : chase (s.nodes ++ [UFNode.root 1])
            ((s.nodes ++ [UFNode.root 1]).length + 1) idx = some rx := by
          apply chase_mono (chase_append h1)
          simp
        rw [h2]
  refine ⟨hadd, ?_, by rw [hadd]; exact hlook, hkr⟩
  rw [hadd]
  refine ⟨?_, ?_, ?_, ?_⟩
  · intro x id h
    rw [hlook x] at h
    by_cases hx : x = k
    · rw [if_pos hx] at h
      obtain rfl : s.nodes.length = id := by simpa using h
      simp
    · rw [if_neg hx] at h
      have := wf1 x id h
      simp
      omega
  · intro id hid
    simp only [List.length_append, List.length_cons, List.length_nil] at hid
    rw [childCount_append_root]
    by_cases hlt : id < s.nodes.length
    · obtain ⟨rx, hrx⟩ := Option.isSome_iff_exists.mp (wf2 id hlt)
      rw [Option.isSome_iff_exists]
      exact ⟨rx, chase_append hrx⟩
    · obtain rfl : id = s.nodes.length := by omega
      rw [Option.isSome_iff_exists]
      exact ⟨s.nodes.length, hchase_new _ (by omega)⟩
  · show s.set_count + 1 = rootCount (s.nodes ++ [UFNode.root 1])
    rw [rootCount_append_root, wf3]
  · intro id hroot
    by_cases hid : id = s.nodes.length
    · subst hid
      refine ⟨k, ?_⟩
      rw [← hadd]
      rw [hkr k, if_pos rfl]
    · have hid_lt : id < s.nodes.length := by
        obtain ⟨l, hl, hllt⟩ := rAt_spec hroot
        simp at hllt
        omega
      have hroot_old : rAt s.nodes id = true := by
        obtain ⟨l, hl, _⟩ := rAt_spec hroot
        rw [List.getElem?_append_left hid_lt] at hl
        simp [rAt, hl]
      obtain ⟨x, hx⟩ := wf4 id hroot_old
      have hxk : x ≠ k := by
        intro he
        subst he
        rw [keyRoot, hk] at hx
        simp at hx
      refine ⟨x, ?_⟩
      rw [← hadd, hkr x, if_neg hxk]
      exact hx

theorem add_existing {κ : Type} [DecidableEq κ] {s : HashUnionFindSets κ} {k : κ}
    {id : Nat} (hk : lookupKey s.items k = some id) : add s k = (false, s) := by
  rw [add, hk]

end AddLemmas

end UF

namespace UF

section SimLemmas

theorem keyRoot_present {κ : Type} [DecidableEq κ] {s : HashUnionFindSets κ} {a : κ}
    {ida : Nat} (hwf : WF s) (h : lookupKey s.items a = some ida) :
    ∃ ra, keyRoot s a = some ra := by
  obtain ⟨wf1, wf2, wf3, wf4⟩ := hwf
  obtain ⟨ra, hra⟩ := Option.isSome_iff_exists.mp (wf2 ida (wf1 a ida h))
  refine ⟨ra, ?_⟩
  rw [keyRoot, h, Option.some_bind]
  exact chase_mono hra (by have := childCount_le s.nodes; omega)

theorem keyRoot_lt {κ : Type} [DecidableEq κ] {s : HashUnionFindSets κ} {a : κ}
    {ra : Nat} (h : keyRoot s a = some ra) : ra < s.nodes.length := by
  rw [keyRoot] at h
  match hl : lookupKey s.items a with
  | none => rw [hl] at h; simp at h
  | some ida =>
    rw [hl, Option.some_bind] at h
    exact (chase_root h).2

theorem add_sim {κ : Type} [DecidableEq κ] {s : HashUnionFindSets κ}
    {pairs : List (κ × κ)} (hsim : Sim s pairs) (k : κ) :
    Sim (add s k).2 pairs ∧
    (∀ n, s.set_count + n = s.items.length →
      (add s k).2.set_count + n = (add s k).2.items.length) := by
  obtain ⟨hwf, hiff, hpairs⟩ := hsim
  match hk : lookupKey s.items k with
  | some id =>
    rw [add_existing hk]
    exact ⟨⟨hwf, hiff, hpairs⟩, fun n h => h⟩
  | none =>
    obtain ⟨hadd, hwf', hlook, hkr⟩ := add_new_spec hwf hk
    have hk_unmentioned : ∀ p ∈ pairs, p.1 ≠ k ∧ p.2 ≠ k := by
      intro p hp
      obtain ⟨hp1, hp2⟩ := hpairs p hp
      constructor
      · intro he
        rw [he, hk] at hp1
        simp at hp1
      · intro he
        rw [he, hk] at hp2
        simp at hp2
    refine ⟨⟨hwf', ?_, ?_⟩, ?_⟩
    · intro a b ha hb
      rw [hlook a] at ha
      rw [hlook b] at hb
      by_cases hak : a = k <;> by_cases hbk : b = k
      · subst hak
        subst hbk
        exact ⟨fun _ => Connected.refl _, fun _ => rfl⟩
      · subst hak
        rw [if_neg hbk] at hb
        obtain ⟨idb, hidb⟩ := Option.isSome_iff_exists.mp hb
        obtain ⟨rb, hrb⟩ := keyRoot_present hwf hidb
        have hrb_lt : rb < s.nodes.length := keyRoot_lt hrb
        rw [hkr a, hkr b, if_pos rfl, if_neg hbk, hrb]
        constructor
        · intro he
          simp at he
          omega
        · intro hc
          have := connected_unmentioned hc hk_unmentioned
          exact absurd this.symm hbk
      · subst hbk
        rw [if_neg hak] at ha
        obtain ⟨ida, hida⟩ := Option.isSome_iff_exists.mp ha
        obtain ⟨ra, hra⟩ := keyRoot_present hwf hida
        have hra_lt : ra < s.nodes.length := keyRoot_lt hra
        rw [hkr a, hkr b, if_pos rfl, if_neg hak, hra]
        constructor
        · intro he
          simp at he
          omega
        · intro hc
          have := connected_unmentioned hc.symm hk_unmentioned
          exact absurd this.symm hak
      · rw [if_neg hak] at ha
        rw [if_neg hbk] at hb
        rw [hkr a, hkr b, if_neg hak, if_neg hbk]
        exact hiff a b ha hb
    · intro p hp
      obtain ⟨hp1, hp2⟩ := hpairs p hp
      rw [hlook p.1, hlook p.2]
      constructor
      · by_cases h : p.1 = k
        · simp [h]
        · rw [if_neg h]
          exact hp1
      · by_cases h : p.2 = k
        · simp [h]
        · rw [if_neg h]
          exact hp2
    · intro n h
      rw [hadd]
      simp only [List.length_cons]
      omega

end SimLemmas

end UF

namespace UF

section RunLemmas

theorem collapse_eq_iff {r1 r2 ra rb w lo : Nat} (hne : r1 ≠ r2)
    (hwl : (w = r1 ∧ lo = r2) ∨ (w = r2 ∧ lo = r1)) :
    ((if ra = lo then w else ra) = if rb = lo then w else rb) ↔
      (ra = rb ∨ (ra = r1 ∧ r2 = rb) ∨ (ra = r2 ∧ r1 = rb)) := by
  rcases hwl with ⟨rfl, rfl⟩ | ⟨rfl, rfl⟩ <;>
    by_cases h1 : ra = lo <;> by_cases h2 : rb = lo <;>
      simp [h1, h2] <;> omega

theorem applyOp_inv {κ : Type} [DecidableEq κ] [Repr κ]
    {s : HashUnionFindSets κ} {pairs : List (κ × κ)} {n : Nat} {op : Op κ}
    {s' : HashUnionFindSets κ} {pairs' : List (κ × κ)} {n' : Nat}
    (happ : applyOp (s, pairs, n) op = some (s', pairs', n'))
    (hsim : Sim s pairs) (hcnt : s.set_count + n = s.items.length) :
    Sim s' pairs' ∧ s'.set_count + n' = s'.items.length := by
  match op with
  | .add k =>
    obtain ⟨hsim', hcnt'⟩ := add_sim hsim k
    rw [applyOp] at happ
    obtain ⟨rfl, rfl, rfl⟩ : (add s k).2 = s' ∧ pairs = pairs' ∧ n = n' := by
      simpa using happ
    exact ⟨hsim', hcnt' n hcnt⟩
  | .union k1 k2 =>
    rw [applyOp] at happ
    obtain ⟨hwf, hiff, hpairs⟩ := hsim
    match h1 : lookupKey s.items k1 with
    | none =>
      match h2 : lookupKey s.items k2 with
      | none =>
        rw [unite_both_missing h1 h2] at happ
        obtain ⟨rfl, rfl, rfl⟩ : s = s' ∧ pairs = pairs' ∧ n = n' := by simpa using happ
        exact ⟨⟨hwf, hiff, hpairs⟩, hcnt⟩
      | some id2 =>
        obtain ⟨sE, hE, hwfE, hitemsE, hscE, hlenE, hkrE, hrootsE⟩ :=
          unite_k1_missing hwf h1 h2
        rw [hE] at happ
        obtain ⟨rfl, rfl, rfl⟩ : sE = s' ∧ pairs = pairs' ∧ n = n' := by simpa using happ
        refine ⟨⟨hwfE, ?_, ?_⟩, ?_⟩
        · intro a b ha hb
          rw [hitemsE] at ha hb
          rw [hkrE a, hkrE b]
          exact hiff a b ha hb
        · intro p hp
          rw [hitemsE]
          exact hpairs p hp
        · rw [hscE, hitemsE]
          exact hcnt
    | some id1 =>
      match h2 : lookupKey s.items k2 with
      | none =>
        obtain ⟨sE, hE, hwfE, hitemsE, hscE, hlenE, hkrE, hrootsE⟩ :=
          unite_k2_missing hwf h1 h2
        rw [hE] at happ
        obtain ⟨rfl, rfl, rfl⟩ : sE = s' ∧ pairs = pairs' ∧ n = n' := by simpa using happ
        refine ⟨⟨hwfE, ?_, ?_⟩, ?_⟩
        · intro a b ha hb
          rw [hitemsE] at ha hb
          rw [hkrE a, hkrE b]
          exact hiff a b ha hb
        · intro p hp
          rw [hitemsE]
          exact hpairs p hp
        · rw [hscE, hitemsE]
          exact hcnt
      | some id2 =>
        obtain ⟨r1, hr1⟩ := keyRoot_present hwf h1
        obtain ⟨r2, hr2⟩ := keyRoot_present hwf h2
        by_cases hrr : r1 = r2
        · have hsame : keyRoot s k1 = keyRoot s k2 := by rw [hr1, hr2, hrr]
          obtain ⟨sF, hF, hwfF, hitemsF, hscF, hlenF, hkrF, hrootsF⟩ :=
            unite_same_root hwf h1 h2 hsame
          rw [hF] at happ
          obtain ⟨rfl, rfl, rfl⟩ : sF = s' ∧ pairs ++ [(k1, k2)] = pairs' ∧ n = n' := by
            simpa using happ
          have hc12 : Connected pairs k1 k2 :=
            (hiff k1 k2 (by simp [h1]) (by simp [h2])).mp hsame
          refine ⟨⟨hwfF, ?_, ?_⟩, ?_⟩
          · intro a b ha hb
            rw [hitemsF] at ha hb
            rw [hkrF a, hkrF b, connected_append_redundant hc12]
            exact hiff a b ha hb
          · intro p hp
            rcases List.mem_append.mp hp with hin | hone
            · rw [hitemsF]
              exact hpairs p hin
            · simp only [List.mem_singleton] at hone
              subst hone
              rw [hitemsF]
              exact ⟨by simp [h1], by simp [h2]⟩
          · rw [hscF, hitemsF]
            exact hcnt
        · obtain ⟨len1, len2, sG, hroot1, hroot2, hG, hwfG, hitemsG, hscG, hsc2,
            hlenG, hGw, hGlo, hkrG⟩ := unite_diff_root hwf h1 h2 hr1 hr2 hrr
          rw [hG] at happ
          obtain ⟨rfl, rfl, rfl⟩ : sG = s' ∧ pairs ++ [(k1, k2)] = pairs' ∧ n + 1 = n' := by
            simpa using happ
          refine ⟨⟨hwfG, ?_, ?_⟩, ?_⟩
          · intro a b ha hb
            rw [hitemsG] at ha hb
            obtain ⟨ida, hida⟩ := Option.isSome_iff_exists.mp ha
            obtain ⟨idb, hidb⟩ := Option.isSome_iff_exists.mp hb
            obtain ⟨ra, hra⟩ := keyRoot_present hwf hida
            obtain ⟨rb, hrb⟩ := keyRoot_present hwf hidb
            have hCab : Connected pairs a b ↔ ra = rb := by
              rw [← hiff a b ha hb, hra, hrb]
              simp
            have hCak1 : Connected pairs a k1 ↔ ra = r1 := by
              rw [← hiff a k1 ha (by simp [h1]), hra, hr1]
              simp
            have hCk2b : Connected pairs k2 b ↔ r2 = rb := by
              rw [← hiff k2 b (by simp [h2]) hb, hr2, hrb]
              simp
            have hCak2 : Connected pairs a k2 ↔ ra = r2 := by
              rw [← hiff a k2 ha (by simp [h2]), hra, hr2]
              simp
            have hCk1b : Connected pairs k1 b ↔ r1 = rb := by
              rw [← hiff k1 b (by simp [h1]) hb, hr1, hrb]
              simp
            rw [hkrG a, hkrG b, hra, hrb, connected_append_iff,
              hCab, hCak1, hCk2b, hCak2, hCk1b]
            simp only [Option.map]
            rw [Option.some.injEq]
            apply collapse_eq_iff hrr
            by_cases hl : len1 < len2
            · rw [if_pos hl, if_pos hl]
              exact Or.inr ⟨rfl, rfl⟩
            · rw [if_neg hl, if_neg hl]
              exact Or.inl ⟨rfl, rfl⟩
          · intro p hp
            rcases List.mem_append.mp hp with hin | hone
            · rw [hitemsG]
              exact hpairs p hin
            · simp only [List.mem_singleton] at hone
              subst hone
              rw [hitemsG]
              exact ⟨by simp [h1], by simp [h2]⟩
          · rw [hscG, hitemsG]
            omega

theorem runOpsFrom_inv {κ : Type} [DecidableEq κ] [Repr κ]
    (ops : List (Op κ)) (st st' : HashUnionFindSets κ × List (κ × κ) × Nat)
    (hrun : runOpsFrom st ops = some st')
    (hsim : Sim st.1 st.2.1) (hcnt : st.1.set_count + st.2.2 = st.1.items.length) :
    Sim st'.1 st'.2.1 ∧ st'.1.set_count + st'.2.2 = st'.1.items.length := by
  induction ops generalizing st with
  | nil =>
    rw [runOpsFrom] at hrun
    obtain rfl : st = st' := by simpa using hrun
    exact ⟨hsim, hcnt⟩
  | cons op rest ih =>
    rw [runOpsFrom] at hrun
    match happ : applyOp st op with
    | none => rw [happ] at hrun; simp at hrun
    | some st1 =>
      rw [happ] at hrun
      obtain ⟨s1, pairs1, n1⟩ := st1
      obtain ⟨⟨s0, pairs0, n0⟩, rfl⟩ : ∃ st0, st = st0 := ⟨st, rfl⟩
      obtain ⟨hsim1, hcnt1⟩ := applyOp_inv happ hsim hcnt
      exact ih _ hrun hsim1 hcnt1

theorem sim_new {κ : Type} [DecidableEq κ] : Sim (new κ) ([] : List (κ × κ)) := by
  refine ⟨⟨?_, ?_, ?_, ?_⟩, ?_, ?_⟩
  · intro k id h
    simp [lookupKey, new] at h
  · intro id hid
    simp [new] at hid
  · rfl
  · intro id hroot
    simp [rAt, new] at hroot
  · intro a b ha
    simp [lookupKey, new] at ha
  · intro p hp
    simp at hp

theorem from_iter_sim {κ : Type} [DecidableEq κ] (ks : List κ) :
    Sim (from_iter ks) ([] : List (κ × κ)) ∧
      (from_iter ks).set_count = (from_iter ks).items.length := by
  suffices h : ∀ acc : HashUnionFindSets κ, Sim acc [] →
      acc.set_count = acc.items.length →
      Sim (ks.foldl (fun s k => (add s k).2) acc) [] ∧
        (ks.foldl (fun s k => (add s k).2) acc).set_count =
          (ks.foldl (fun s k => (add s k).2) acc).items.length by
    exact h (new κ) sim_new rfl
  induction ks with
  | nil => exact fun acc hs hc => ⟨hs, hc⟩
  | cons k rest ih =>
    intro acc hs hc
    obtain ⟨hs', hc'⟩ := add_sim hs k
    have hc'' := hc' 0 (by omega)
    exact ih _ hs' (by simpa using hc'')

end RunLemmas

end UF

namespace UF

section ObsLemmas

theorem distinctRoots_eq {κ : Type} [DecidableEq κ] {s : HashUnionFindSets κ}
    (hwf : WF s) : distinctRoots s = rootCount s.nodes := by
  obtain ⟨wf1, wf2, wf3, wf4⟩ := hwf
  set L := s.items.filterMap (fun p => chase s.nodes (s.nodes.length + 1) p.2) with hL
  have hmem : ∀ x, x ∈ L ↔ (x < s.nodes.length ∧ rAt s.nodes x = true) := by
    intro x
    rw [hL, List.mem_filterMap]
    constructor
    · rintro ⟨p, hp, hch⟩
      obtain ⟨hr, hlt⟩ := chase_root hch
      exact ⟨hlt, hr⟩
    · rintro ⟨hlt, hr⟩
      obtain ⟨k, hk⟩ := wf4 x hr
      rw [keyRoot] at hk
      match hlk : lookupKey s.items k with
      | none => rw [hlk] at hk; simp at hk
      | some idk =>
        rw [hlk, Option.some_bind] at hk
        exact ⟨(k, idk), lookupKey_mem hlk, hk⟩
  have hnodup1 : L.dedup.Nodup := List.nodup_dedup L
  have hnodup2 : ((List.range s.nodes.length).filter (rAt s.nodes)).Nodup :=
    (List.nodup_range s.nodes.length).filter _
  have hiff : ∀ x, x ∈ L.dedup ↔ x ∈ (List.range s.nodes.length).filter (rAt s.nodes) := by
    intro x
    rw [List.mem_dedup, hmem x, mem_filter_range]
  have hperm := (List.perm_ext_iff_of_nodup hnodup1 hnodup2).mpr hiff
  rw [distinctRoots, rootCount]
  exact hperm.length_eq

theorem set_eq_result_congr {κ : Type} [DecidableEq κ] [Repr κ]
    {s s' : HashUnionFindSets κ}
    (hwfs : WF s) (hwf' : WF s') (hitems : s'.items = s.items)
    (hkr : ∀ x, keyRoot s' x = keyRoot s x) :
    ∀ a b, (set_eq s' a b).map Prod.fst = (set_eq s a b).map Prod.fst := by
  intro a b
  match ha : lookupKey s.items a with
  | some ida =>
    match hb : lookupKey s.items b with
    | some idb =>
      obtain ⟨r1, r2, t1, he1, hkr1, hkr2, _⟩ := set_eq_both_present hwfs ha hb
      obtain ⟨r1', r2', t2, he2, hkr1', hkr2', _⟩ := set_eq_both_present hwf'
        (show lookupKey s'.items a = some ida by rw [hitems]; exact ha)
        (show lookupKey s'.items b = some idb by rw [hitems]; exact hb)
      obtain rfl : r1 = r1' := by
        rw [hkr a, hkr1] at hkr1'
        simpa using hkr1'
      obtain rfl : r2 = r2' := by
        rw [hkr b, hkr2] at hkr2'
        simpa using hkr2'
      rw [he1, he2]
      rfl
    | none =>
      obtain ⟨t1, he1, _⟩ := set_eq_k2_missing hwfs ha hb
      obtain ⟨t2, he2, _⟩ := set_eq_k2_missing hwf'
        (show lookupKey s'.items a = some ida by rw [hitems]; exact ha)
        (show lookupKey s'.items b = none by rw [hitems]; exact hb)
      rw [he1, he2]
      rfl
  | none =>
    match hb : lookupKey s.items b with
    | some idb =>
      obtain ⟨t1, he1, _⟩ := set_eq_k1_missing hwfs ha hb
      obtain ⟨t2, he2, _⟩ := set_eq_k1_missing hwf'
        (show lookupKey s'.items a = none by rw [hitems]; exact ha)
        (show lookupKey s'.items b = some idb by rw [hitems]; exact hb)
      rw [he1, he2]
      rfl
    | none =>
      rw [set_eq_both_missing ha hb, set_eq_both_missing
        (show lookupKey s'.items a = none by rw [hitems]; exact ha)
        (show lookupKey s'.items b = none by rw [hitems]; exact hb)]
      rfl

theorem len_of_result_congr {κ : Type} [DecidableEq κ] [Repr κ]
    {s s' : HashUnionFindSets κ}
    (hwfs : WF s) (hwf' : WF s') (hitems : s'.items = s.items)
    (hkr : ∀ x, keyRoot s' x = keyRoot s x)
    (hroots : ∀ (j l : Nat), s.nodes[j]? = some (UFNode.root l) →
      s'.nodes[j]? = some (UFNode.root l)) :
    ∀ a, (len_of s' a).map Prod.fst = (len_of s a).map Prod.fst := by
  intro a
  match ha : lookupKey s.items a with
  | some ida =>
    obtain ⟨r, len, t1, he1, hkra, hroota, _⟩ := len_of_present hwfs ha
    obtain ⟨r', len', t2, he2, hkra', hroota', _⟩ := len_of_present hwf'
      (show lookupKey s'.items a = some ida by rw [hitems]; exact ha)
    obtain rfl : r = r' := by
      rw [hkr a, hkra] at hkra'
      simpa using hkra'
    obtain rfl : len = len' := by
      have := hroots r len hroota
      rw [hroota'] at this
      simpa using this.symm
    rw [he1, he2]
    rfl
  | none =>
    rw [len_of_missing ha, len_of_missing
      (show lookupKey s'.items a = none by rw [hitems]; exact ha)]
    rfl

end ObsLemmas

end UF

namespace UF

section ClaimC2C7

/-- C2 (amended): after any sequence of add/union calls from the empty
forest, for any two added keys `a`, `b`, `same_set` returns `Ok(c)` where
`c` is true iff `a` and `b` are connected in the reflexive-transitive-
symmetric closure of the pairs on which `unite` was called with both keys
present (the `Ok`-returning calls). -/
theorem same_set_iff_connected {κ : Type} [DecidableEq κ] [Repr κ]
    (ops : List (Op κ)) (s : HashUnionFindSets κ) (pairs : List (κ × κ)) (n : Nat)
    (a b : κ) (hrun : runOps ops = some (s, pairs, n))
    (ha : (lookupKey s.items a).isSome) (hb : (lookupKey s.items b).isSome) :
    ∃ c s', set_eq s a b = some (.ok c, s') ∧ (c = true ↔ Connected pairs a b) := by
  rw [runOps] at hrun
  obtain ⟨hsim, hcount⟩ := runOpsFrom_inv ops _ _ hrun sim_new rfl
  obtain ⟨hwf, hiff, hpairs⟩ := hsim
  obtain ⟨ida, hida⟩ := Option.isSome_iff_exists.mp ha
  obtain ⟨idb, hidb⟩ := Option.isSome_iff_exists.mp hb
  obtain ⟨r1, r2, s', hse, hkr1, hkr2, _⟩ := set_eq_both_present hwf hida hidb
  refine ⟨decide (r1 = r2), s', hse, ?_⟩
  constructor
  · intro hc
    have hr : r1 = r2 := by simpa using hc
    exact (hiff a b ha hb).mp (by rw [hkr1, hkr2, hr])
  · intro hc
    have := (hiff a b ha hb).mpr hc
    rw [hkr1, hkr2] at this
    simpa using this

/-- Witness for C2 on a concrete call sequence. -/
theorem same_set_iff_connected_witness :
    ∃ c s', set_eq (⟨1, [(1, 1), (0, 0)], [UFNode.root 2, UFNode.child 0]⟩ :
        HashUnionFindSets Nat) 0 1 = some (.ok c, s') ∧
      (c = true ↔ Connected [((0 : Nat), (1 : Nat))] 0 1) :=
  same_set_iff_connected [Op.add 0, Op.add 1, Op.union 0 1]
    ⟨1, [(1, 1), (0, 0)], [UFNode.root 2, UFNode.child 0]⟩ [(0, 1)] 1 0 1
    (by decide) (by decide) (by decide)

/-- Counterexample to C2 as literally stated: with the union history read
as all pairs on which `union` was called, an errored call (second key not
yet added) still joins the closure, yet the forest never connects the
keys, so `same_set` answers `Ok(false)` where the claim demands
`Ok(true)`. -/
theorem same_set_called_pairs_counterexample :
    runOps [Op.add (0 : Nat), Op.union 0 1, Op.add 1] =
      some (⟨2, [(1, 1), (0, 0)], [UFNode.root 1, UFNode.root 1]⟩, [], 0) ∧
    unionPairs [Op.add (0 : Nat), Op.union 0 1, Op.add 1] = [(0, 1)] ∧
    Connected [((0 : Nat), (1 : Nat))] 0 1 ∧
    set_eq (⟨2, [(1, 1), (0, 0)], [UFNode.root 1, UFNode.root 1]⟩ :
        HashUnionFindSets Nat) 0 1 =
      some (.ok false, ⟨2, [(1, 1), (0, 0)], [UFNode.root 1, UFNode.root 1]⟩) :=
  ⟨by decide, by decide, Connected.pair (by simp), rfl⟩

/-- C7: after any call sequence starting from the empty forest or from a
collected iterable of initial keys, `count` equals the number of distinct
roots, which equals `items_len` minus the number of `Ok(true)` union
calls. -/
theorem count_distinct_roots {κ : Type} [DecidableEq κ] [Repr κ]
    (ks : List κ) (ops : List (Op κ)) (s : HashUnionFindSets κ)
    (pairs : List (κ × κ)) (t : Nat)
    (hrun : runOpsFrom (from_iter ks, [], 0) ops = some (s, pairs, t)) :
    count s = distinctRoots s ∧ count s + t = items_len s ∧
      count s = items_len s - t := by
  obtain ⟨hsimI, hcntI⟩ := from_iter_sim (κ := κ) ks
  obtain ⟨hsim, hcnt⟩ := runOpsFrom_inv ops _ _ hrun hsimI (by simpa using hcntI)
  obtain ⟨hwf, _, _⟩ := hsim
  have hcnt2 : s.set_count + t = s.items.length := hcnt
  refine ⟨?_, hcnt2, ?_⟩
  · show s.set_count = distinctRoots s
    rw [distinctRoots_eq hwf]
    exact hwf.2.2.1
  · show s.set_count = s.items.length - t
    omega

/-- Witness for C7 on a concrete call sequence. -/
theorem count_distinct_roots_witness :
    count (⟨1, [(1, 1), (0, 0)], [UFNode.root 2, UFNode.child 0]⟩ :
        HashUnionFindSets Nat) =
      distinctRoots (⟨1, [(1, 1), (0, 0)], [UFNode.root 2, UFNode.child 0]⟩ :
        HashUnionFindSets Nat) ∧
    count (⟨1, [(1, 1), (0, 0)], [UFNode.root 2, UFNode.child 0]⟩ :
        HashUnionFindSets Nat) + 1 =
      items_len (⟨1, [(1, 1), (0, 0)], [UFNode.root 2, UFNode.child 0]⟩ :
        HashUnionFindSets Nat) ∧
    count (⟨1, [(1, 1), (0, 0)], [UFNode.root 2, UFNode.child 0]⟩ :
        HashUnionFindSets Nat) =
      items_len (⟨1, [(1, 1), (0, 0)], [UFNode.root 2, UFNode.child 0]⟩ :
        HashUnionFindSets Nat) - 1 :=
  count_distinct_roots [] [Op.add 0, Op.add 1, Op.union 0 1]
    ⟨1, [(1, 1), (0, 0)], [UFNode.root 2, UFNode.child 0]⟩ [(0, 1)] 1 (by decide)

end ClaimC2C7

end UF

namespace UF

section ClaimC4C5

/-- C4: when `unite` is called with both keys present and distinct roots,
the root with strictly smaller stored size becomes a child of the larger
one, the surviving root stores the summed size, the set count drops by
exactly one and the call returns `Ok(true)`; with a shared root the call
returns `Ok(false)` and the forest is observably unchanged. -/
theorem unite_by_size {κ : Type} [DecidableEq κ] [Repr κ]
    (ops : List (Op κ)) (s : HashUnionFindSets κ) (pairs : List (κ × κ)) (n : Nat)
    (k1 k2 : κ) (id1 id2 : Nat)
    (hrun : runOps ops = some (s, pairs, n))
    (h1 : lookupKey s.items k1 = some id1) (h2 : lookupKey s.items k2 = some id2) :
    ∃ r1 r2, keyRoot s k1 = some r1 ∧ keyRoot s k2 = some r2 ∧
      ((r1 = r2 → ∃ s', unite s k1 k2 = some (.ok false, s') ∧
          s'.items = s.items ∧ s'.set_count = s.set_count ∧
          (∀ x, keyRoot s' x = keyRoot s x) ∧
          (∀ (j l : Nat), s.nodes[j]? = some (UFNode.root l) →
            s'.nodes[j]? = some (UFNode.root l))) ∧
       (r1 ≠ r2 → ∃ len1 len2 s',
          s.nodes[r1]? = some (UFNode.root len1) ∧
          s.nodes[r2]? = some (UFNode.root len2) ∧
          unite s k1 k2 = some (.ok true, s') ∧
          s'.set_count + 1 = s.set_count ∧
          (len1 < len2 → s'.nodes[r1]? = some (UFNode.child r2) ∧
            s'.nodes[r2]? = some (UFNode.root (len1 + len2))) ∧
          (len2 < len1 → s'.nodes[r2]? = some (UFNode.child r1) ∧
            s'.nodes[r1]? = some (UFNode.root (len1 + len2))))) := by
  rw [runOps] at hrun
  obtain ⟨⟨hwf0, hiff, hpairs⟩, _⟩ := runOpsFrom_inv ops _ _ hrun sim_new rfl
  have hwf : WF s := hwf0
  obtain ⟨r1, hr1⟩ := keyRoot_present hwf h1
  obtain ⟨r2, hr2⟩ := keyRoot_present hwf h2
  refine ⟨r1, r2, hr1, hr2, ?_, ?_⟩
  · intro hrr
    have hsame : keyRoot s k1 = keyRoot s k2 := by rw [hr1, hr2, hrr]
    obtain ⟨s', he, _, hitems, hsc, _, hkr, hroots⟩ := unite_same_root hwf h1 h2 hsame
    exact ⟨s', he, hitems, hsc, hkr, hroots⟩
  · intro hrr
    obtain ⟨len1, len2, s', hroot1, hroot2, he, _, hitems, hsc, hsc2, hlen,
      hGw, hGlo, hkrG⟩ := unite_diff_root hwf h1 h2 hr1 hr2 hrr
    refine ⟨len1, len2, s', hroot1, hroot2, he, by omega, ?_, ?_⟩
    · intro hl
      simp only [if_pos hl] at hGw hGlo
      exact ⟨hGlo, hGw⟩
    · intro hl
      have hl' : ¬ len1 < len2 := by omega
      simp only [if_neg hl'] at hGw hGlo
      exact ⟨hGlo, hGw⟩

/-- Witness for C4 on a concrete call sequence (`unite 2 0` with set
sizes 1 and 2). -/
theorem unite_by_size_witness :
    ∃ r1 r2, keyRoot (⟨2, [(2, 2), (1, 1), (0, 0)],
          [UFNode.root 2, UFNode.child 0, UFNode.root 1]⟩ :
        HashUnionFindSets Nat) 2 = some r1 ∧
      keyRoot (⟨2, [(2, 2), (1, 1), (0, 0)],
          [UFNode.root 2, UFNode.child 0, UFNode.root 1]⟩ :
        HashUnionFindSets Nat) 0 = some r2 ∧
      ((r1 = r2 → ∃ s', unite (⟨2, [(2, 2), (1, 1), (0, 0)],
            [UFNode.root 2, UFNode.child 0, UFNode.root 1]⟩ :
          HashUnionFindSets Nat) 2 0 = some (.ok false, s') ∧
          s'.items = [(2, 2), (1, 1), (0, 0)] ∧ s'.set_count = 2 ∧
          (∀ x, keyRoot s' x = keyRoot (⟨2, [(2, 2), (1, 1), (0, 0)],
              [UFNode.root 2, UFNode.child 0, UFNode.root 1]⟩ :
            HashUnionFindSets Nat) x) ∧
          (∀ (j l : Nat), [UFNode.root 2, UFNode.child 0, UFNode.root 1][j]? =
              some (UFNode.root l) → s'.nodes[j]? = some (UFNode.root l))) ∧
       (r1 ≠ r2 → ∃ len1 len2 s',
          [UFNode.root 2, UFNode.child 0, UFNode.root 1][r1]? =
            some (UFNode.root len1) ∧
          [UFNode.root 2, UFNode.child 0, UFNode.root 1][r2]? =
            some (UFNode.root len2) ∧
          unite (⟨2, [(2, 2), (1, 1), (0, 0)],
              [UFNode.root 2, UFNode.child 0, UFNode.root 1]⟩ :
            HashUnionFindSets Nat) 2 0 = some (.ok true, s') ∧
          s'.set_count + 1 = 2 ∧
          (len1 < len2 → s'.nodes[r1]? = some (UFNode.child r2) ∧
            s'.nodes[r2]? = some (UFNode.root (len1 + len2))) ∧
          (len2 < len1 → s'.nodes[r2]? = some (UFNode.child r1) ∧
            s'.nodes[r1]? = some (UFNode.root (len1 + len2))))) :=
  unite_by_size [Op.add 0, Op.add 1, Op.union 0 1, Op.add 2]
    ⟨2, [(2, 2), (1, 1), (0, 0)], [UFNode.root 2, UFNode.child 0, UFNode.root 1]⟩
    [(0, 1)] 1 2 0 2 0 (by decide) (by decide) (by decide)

/-- C5 (amended): on a size tie between distinct roots, the second key's
root becomes the child and the first key's root survives. -/
theorem unite_tie_break {κ : Type} [DecidableEq κ] [Repr κ]
    (ops : List (Op κ)) (s : HashUnionFindSets κ) (pairs : List (κ × κ)) (n : Nat)
    (k1 k2 : κ) (id1 id2 r1 r2 len0 : Nat)
    (hrun : runOps ops = some (s, pairs, n))
    (h1 : lookupKey s.items k1 = some id1) (h2 : lookupKey s.items k2 = some id2)
    (hkr1 : keyRoot s k1 = some r1) (hkr2 : keyRoot s k2 = some r2) (hne : r1 ≠ r2)
    (hlen1 : s.nodes[r1]? = some (UFNode.root len0))
    (hlen2 : s.nodes[r2]? = some (UFNode.root len0)) :
    ∃ s', unite s k1 k2 = some (.ok true, s') ∧
      s'.nodes[r2]? = some (UFNode.child r1) ∧
      s'.nodes[r1]? = some (UFNode.root (len0 + len0)) := by
  rw [runOps] at hrun
  obtain ⟨⟨hwf0, hiff, hpairs⟩, _⟩ := runOpsFrom_inv ops _ _ hrun sim_new rfl
  have hwf : WF s := hwf0
  obtain ⟨len1, len2, s', hroot1, hroot2, he, _, hitems, hsc, hsc2, hlen,
    hGw, hGlo, hkrG⟩ := unite_diff_root hwf h1 h2 hkr1 hkr2 hne
  obtain rfl : len0 = len1 := by
    rw [hlen1] at hroot1
    simpa using hroot1
  obtain rfl : len0 = len2 := by
    rw [hlen2] at hroot2
    simpa using hroot2
  have hnl : ¬ len0 < len0 := by omega
  simp only [if_neg hnl] at hGw hGlo
  exact ⟨s', he, hGlo, hGw⟩

/-- Witness for the amended C5 on a concrete tie. -/
theorem unite_tie_break_witness :
    ∃ s', unite (⟨2, [(1, 1), (0, 0)], [UFNode.root 1, UFNode.root 1]⟩ :
        HashUnionFindSets Nat) 0 1 = some (.ok true, s') ∧
      s'.nodes[1]? = some (UFNode.child 0) ∧
      s'.nodes[0]? = some (UFNode.root (1 + 1)) :=
  unite_tie_break [Op.add 0, Op.add 1]
    ⟨2, [(1, 1), (0, 0)], [UFNode.root 1, UFNode.root 1]⟩ [] 0 0 1 0 1 0 1 1
    (by decide) (by decide) (by decide) (by decide) (by decide) (by decide)
    (by decide) (by decide)

/-- Counterexample to C5 as stated: on a size tie, the first key's root
does not become a child of the second key's root; it stays the root and
the second key's root becomes its child. -/
theorem unite_tie_counterexample :
    runOps [Op.add (0 : Nat), Op.add 1] =
      some (⟨2, [(1, 1), (0, 0)], [UFNode.root 1, UFNode.root 1]⟩, [], 0) ∧
    keyRoot (⟨2, [(1, 1), (0, 0)], [UFNode.root 1, UFNode.root 1]⟩ :
        HashUnionFindSets Nat) 0 = some 0 ∧
    keyRoot (⟨2, [(1, 1), (0, 0)], [UFNode.root 1, UFNode.root 1]⟩ :
        HashUnionFindSets Nat) 1 = some 1 ∧
    rootLenAt [UFNode.root 1, UFNode.root 1] 0 = some 1 ∧
    rootLenAt [UFNode.root 1, UFNode.root 1] 1 = some 1 ∧
    unite (⟨2, [(1, 1), (0, 0)], [UFNode.root 1, UFNode.root 1]⟩ :
        HashUnionFindSets Nat) 0 1 =
      some (.ok true, ⟨1, [(1, 1), (0, 0)], [UFNode.root 2, UFNode.child 0]⟩) ∧
    ¬ [UFNode.root 2, UFNode.child 0][0]? = some (UFNode.child 1) :=
  ⟨by decide, by decide, by decide, by decide, by decide, rfl, by decide⟩

end ClaimC4C5

end UF

namespace UF

section ClaimC6C9

/-- C6: `same_set` and `unite` fail exactly when an argument key was
never added; the error names exactly the missing keys (only `k2`, only
`k1`, or both, in that order), and every call returns `some` result (no
other failure mode). -/
theorem error_naming {κ : Type} [DecidableEq κ] [Repr κ]
    (ops : List (Op κ)) (s : HashUnionFindSets κ) (pairs : List (κ × κ)) (n : Nat)
    (k1 k2 : κ) (hrun : runOps ops = some (s, pairs, n)) :
    (∀ (id1 id2 : Nat), lookupKey s.items k1 = some id1 →
      lookupKey s.items k2 = some id2 →
      (∃ b s', set_eq s k1 k2 = some (.ok b, s')) ∧
      (∃ b s', unite s k1 k2 = some (.ok b, s'))) ∧
    (∀ id1 : Nat, lookupKey s.items k1 = some id1 → lookupKey s.items k2 = none →
      (∃ s', set_eq s k1 k2 = some (.error (error_msg [reprStr k2]), s')) ∧
      (∃ s', unite s k1 k2 = some (.error (error_msg [reprStr k2]), s'))) ∧
    (lookupKey s.items k1 = none → ∀ id2 : Nat, lookupKey s.items k2 = some id2 →
      (∃ s', set_eq s k1 k2 = some (.error (error_msg [reprStr k1]), s')) ∧
      (∃ s', unite s k1 k2 = some (.error (error_msg [reprStr k1]), s'))) ∧
    (lookupKey s.items k1 = none → lookupKey s.items k2 = none →
      set_eq s k1 k2 = some (.error (error_msg [reprStr k1, reprStr k2]), s) ∧
      unite s k1 k2 = some (.error (error_msg [reprStr k1, reprStr k2]), s)) := by
  rw [runOps] at hrun
  obtain ⟨⟨hwf0, hiff, hpairs⟩, _⟩ := runOpsFrom_inv ops _ _ hrun sim_new rfl
  have hwf : WF s := hwf0
  refine ⟨?_, ?_, ?_, ?_⟩
  · intro id1 id2 h1 h2
    obtain ⟨r1, r2, s', hse, _⟩ := set_eq_both_present hwf h1 h2
    obtain ⟨ra, hra⟩ := keyRoot_present hwf h1
    obtain ⟨rb, hrb⟩ := keyRoot_present hwf h2
    refine ⟨⟨_, s', hse⟩, ?_⟩
    by_cases hrr : ra = rb
    · obtain ⟨t, he, _⟩ := unite_same_root hwf h1 h2 (by rw [hra, hrb, hrr])
      exact ⟨false, t, he⟩
    · obtain ⟨len1, len2, t, _, _, he, _⟩ := unite_diff_root hwf h1 h2 hra hrb hrr
      exact ⟨true, t, he⟩
  · intro id1 h1 h2
    obtain ⟨t1, he1, _⟩ := set_eq_k2_missing hwf h1 h2
    obtain ⟨t2, he2, _⟩ := unite_k2_missing hwf h1 h2
    exact ⟨⟨t1, he1⟩, ⟨t2, he2⟩⟩
  · intro h1 id2 h2
    obtain ⟨t1, he1, _⟩ := set_eq_k1_missing hwf h1 h2
    obtain ⟨t2, he2, _⟩ := unite_k1_missing hwf h1 h2
    exact ⟨⟨t1, he1⟩, ⟨t2, he2⟩⟩
  · intro h1 h2
    exact ⟨set_eq_both_missing h1 h2, unite_both_missing h1 h2⟩

/-- Witness for C6 on a concrete forest. -/
theorem error_naming_witness :
    (∀ (id1 id2 : Nat), lookupKey (([(0, 0)] : List (Nat × Nat))) 0 = some id1 →
      lookupKey ([(0, 0)] : List (Nat × Nat)) 1 = some id2 →
      (∃ b s', set_eq (⟨1, [(0, 0)], [UFNode.root 1]⟩ : HashUnionFindSets Nat) 0 1 =
        some (.ok b, s')) ∧
      (∃ b s', unite (⟨1, [(0, 0)], [UFNode.root 1]⟩ : HashUnionFindSets Nat) 0 1 =
        some (.ok b, s'))) ∧
    (∀ id1 : Nat, lookupKey ([(0, 0)] : List (Nat × Nat)) 0 = some id1 →
      lookupKey ([(0, 0)] : List (Nat × Nat)) 1 = none →
      (∃ s', set_eq (⟨1, [(0, 0)], [UFNode.root 1]⟩ : HashUnionFindSets Nat) 0 1 =
        some (.error (error_msg [reprStr (1 : Nat)]), s')) ∧
      (∃ s', unite (⟨1, [(0, 0)], [UFNode.root 1]⟩ : HashUnionFindSets Nat) 0 1 =
        some (.error (error_msg [reprStr (1 : Nat)]), s'))) ∧
    (lookupKey ([(0, 0)] : List (Nat × Nat)) 0 = none →
      ∀ id2 : Nat, lookupKey ([(0, 0)] : List (Nat × Nat)) 1 = some id2 →
      (∃ s', set_eq (⟨1, [(0, 0)], [UFNode.root 1]⟩ : HashUnionFindSets Nat) 0 1 =
        some (.error (error_msg [reprStr (0 : Nat)]), s')) ∧
      (∃ s', unite (⟨1, [(0, 0)], [UFNode.root 1]⟩ : HashUnionFindSets Nat) 0 1 =
        some (.error (error_msg [reprStr (0 : Nat)]), s'))) ∧
    (lookupKey ([(0, 0)] : List (Nat × Nat)) 0 = none →
      lookupKey ([(0, 0)] : List (Nat × Nat)) 1 = none →
      set_eq (⟨1, [(0, 0)], [UFNode.root 1]⟩ : HashUnionFindSets Nat) 0 1 =
        some (.error (error_msg [reprStr (0 : Nat), reprStr (1 : Nat)]),
          ⟨1, [(0, 0)], [UFNode.root 1]⟩) ∧
      unite (⟨1, [(0, 0)], [UFNode.root 1]⟩ : HashUnionFindSets Nat) 0 1 =
        some (.error (error_msg [reprStr (0 : Nat), reprStr (1 : Nat)]),
          ⟨1, [(0, 0)], [UFNode.root 1]⟩)) :=
  error_naming [Op.add 0] ⟨1, [(0, 0)], [UFNode.root 1]⟩ [] 0 0 1 (by decide)

/-- C9: queries (`same_set` and `len_of`, both built on `find`) leave all
observable state unchanged: the key set, the set count and the results of
all subsequent `same_set` and `len_of` calls are the same before and
after, despite path compression. -/
theorem query_frame {κ : Type} [DecidableEq κ] [Repr κ]
    (ops : List (Op κ)) (s : HashUnionFindSets κ) (pairs : List (κ × κ)) (n : Nat)
    (q1 q2 q3 : κ) (hrun : runOps ops = some (s, pairs, n)) :
    (∃ res s', set_eq s q1 q2 = some (res, s') ∧
      s'.items = s.items ∧ items_len s' = items_len s ∧ count s' = count s ∧
      (∀ a b, (set_eq s' a b).map Prod.fst = (set_eq s a b).map Prod.fst) ∧
      (∀ a, (len_of s' a).map Prod.fst = (len_of s a).map Prod.fst)) ∧
    (∃ res s', len_of s q3 = some (res, s') ∧
      s'.items = s.items ∧ items_len s' = items_len s ∧ count s' = count s ∧
      (∀ a b, (set_eq s' a b).map Prod.fst = (set_eq s a b).map Prod.fst) ∧
      (∀ a, (len_of s' a).map Prod.fst = (len_of s a).map Prod.fst)) := by
  rw [runOps] at hrun
  obtain ⟨⟨hwf0, hiff, hpairs⟩, _⟩ := runOpsFrom_inv ops _ _ hrun sim_new rfl
  have hwf : WF s := hwf0
  constructor
  · have hblock : ∃ res s', set_eq s q1 q2 = some (res, s') ∧ WF s' ∧
        s'.items = s.items ∧ s'.set_count = s.set_count ∧
        (∀ x, keyRoot s' x = keyRoot s x) ∧
        (∀ (j l : Nat), s.nodes[j]? = some (UFNode.root l) →
          s'.nodes[j]? = some (UFNode.root l)) := by
      match h1 : lookupKey s.items q1 with
      | some id1 =>
        match h2 : lookupKey s.items q2 with
        | some id2 =>
          obtain ⟨r1, r2, s', hse, _, _, hwf', hitems, hsc, _, hkr, hroots⟩ :=
            set_eq_both_present hwf h1 h2
          exact ⟨_, s', hse, hwf', hitems, hsc, hkr, hroots⟩
        | none =>
          obtain ⟨s', hse, hwf', hitems, hsc, _, hkr, hroots⟩ :=
            set_eq_k2_missing hwf h1 h2
          exact ⟨_, s', hse, hwf', hitems, hsc, hkr, hroots⟩
      | none =>
        match h2 : lookupKey s.items q2 with
        | some id2 =>
          obtain ⟨s', hse, hwf', hitems, hsc, _, hkr, hroots⟩ :=
            set_eq_k1_missing hwf h1 h2
          exact ⟨_, s', hse, hwf', hitems, hsc, hkr, hroots⟩
        | none =>
          exact ⟨_, s, set_eq_both_missing h1 h2, hwf, rfl, rfl, fun _ => rfl,
            fun _ _ h => h⟩
    obtain ⟨res, s', hse, hwf', hitems, hsc, hkr, hroots⟩ := hblock
    exact ⟨res, s', hse, hitems, by simpa [items_len] using congrArg List.length hitems,
      hsc, set_eq_result_congr hwf hwf' hitems hkr,
      len_of_result_congr hwf hwf' hitems hkr hroots⟩
  · have hblock : ∃ res s', len_of s q3 = some (res, s') ∧ WF s' ∧
        s'.items = s.items ∧ s'.set_count = s.set_count ∧
        (∀ x, keyRoot s' x = keyRoot s x) ∧
        (∀ (j l : Nat), s.nodes[j]? = some (UFNode.root l) →
          s'.nodes[j]? = some (UFNode.root l)) := by
      match h3 : lookupKey s.items q3 with
      | some id3 =>
        obtain ⟨r, len, s', hle, _, _, hwf', hitems, hsc, _, hkr, hroots⟩ :=
          len_of_present hwf h3
        exact ⟨_, s', hle, hwf', hitems, hsc, hkr, hroots⟩
      | none =>
        exact ⟨_, s, len_of_missing h3, hwf, rfl, rfl, fun _ => rfl, fun _ _ h => h⟩
    obtain ⟨res, s', hle, hwf', hitems, hsc, hkr, hroots⟩ := hblock
    exact ⟨res, s', hle, hitems, by simpa [items_len] using congrArg List.length hitems,
      hsc, set_eq_result_congr hwf hwf' hitems hkr,
      len_of_result_congr hwf hwf' hitems hkr hroots⟩

/-- Witness for C9 on a concrete forest with a two-node chain. -/
theorem query_frame_witness :
    (∃ res s', set_eq (⟨1, [(1, 1), (0, 0)], [UFNode.root 2, UFNode.child 0]⟩ :
        HashUnionFindSets Nat) 0 1 = some (res, s') ∧
      s'.items = [(1, 1), (0, 0)] ∧
      items_len s' = items_len (⟨1, [(1, 1), (0, 0)],
        [UFNode.root 2, UFNode.child 0]⟩ : HashUnionFindSets Nat) ∧
      count s' = count (⟨1, [(1, 1), (0, 0)],
        [UFNode.root 2, UFNode.child 0]⟩ : HashUnionFindSets Nat) ∧
      (∀ a b, (set_eq s' a b).map Prod.fst =
        (set_eq (⟨1, [(1, 1), (0, 0)], [UFNode.root 2, UFNode.child 0]⟩ :
          HashUnionFindSets Nat) a b).map Prod.fst) ∧
      (∀ a, (len_of s' a).map Prod.fst =
        (len_of (⟨1, [(1, 1), (0, 0)], [UFNode.root 2, UFNode.child 0]⟩ :
          HashUnionFindSets Nat) a).map Prod.fst)) ∧
    (∃ res s', len_of (⟨1, [(1, 1), (0, 0)], [UFNode.root 2, UFNode.child 0]⟩ :
        HashUnionFindSets Nat) 0 = some (res, s') ∧
      s'.items = [(1, 1), (0, 0)] ∧
      items_len s' = items_len (⟨1, [(1, 1), (0, 0)],
        [UFNode.root 2, UFNode.child 0]⟩ : HashUnionFindSets Nat) ∧
      count s' = count (⟨1, [(1, 1), (0, 0)],
        [UFNode.root 2, UFNode.child 0]⟩ : HashUnionFindSets Nat) ∧
      (∀ a b, (set_eq s' a b).map Prod.fst =
        (set_eq (⟨1, [(1, 1), (0, 0)], [UFNode.root 2, UFNode.child 0]⟩ :
          HashUnionFindSets Nat) a b).map Prod.fst) ∧
      (∀ a, (len_of s' a).map Prod.fst =
        (len_of (⟨1, [(1, 1), (0, 0)], [UFNode.root 2, UFNode.child 0]⟩ :
          HashUnionFindSets Nat) a).map Prod.fst)) :=
  query_frame [Op.add 0, Op.add 1, Op.union 0 1]
    ⟨1, [(1, 1), (0, 0)], [UFNode.root 2, UFNode.child 0]⟩ [(0, 1)] 1 0 1 0
    (by decide)

end ClaimC6C9

end UF
